import Mathlib

/-! ## Definitions -/

/-!
Verification of the Newick reader/writer core of Py-phylo-newick
(`phylo/newick/reader.py`, `phylo/newick/writer.py`, `phylo/newick/dialect.py`)
against its natural-language specification.

The Python source is shallowly embedded over `List Char`.  The parse cursor
(a `cStringIO` buffer in the source) is an absolute position `pos : Nat` into
the fixed normalized string `full : List Char`; every primitive reproduces the
source's cursor behaviour, including the two `seek (-1, 1)`-at-end-of-buffer
quirks of `_peek` and `_consumeLeadingSpace`.

Numeric values (Python floats obtained from `float (...)` on the matched
decimal text) are modelled as exact scaled decimals `Dc` (mantissa / 10^exp);
every numeral accepted by the source's regexes is an exact decimal, so no
binary-float rounding is modelled.  `'%.3f' % x` formatting is modelled as
round-half-up on the exact decimal value (C `printf` rounds the underlying
binary double to nearest/even; the two agree except on exact half-way decimal
ties, where the binary double is itself already perturbed).

The generic tree API (`phylo.core.tree`, an external collaborator per spec
section 1) is modelled from the spec's description in sections 3 and 6: a tree
is a list of attribute-carrying nodes plus a list of attribute-carrying
parent/child branches, `add_root`/`add_node` append, `count_nodes` /
`count_branches` are the list lengths, a tip is a node with no child branches
(spec glossary: a leaf), adjacency iterates branches in creation order, and
`get_distance` reads the connecting branch's distance attribute.  Node
`title` is an entry of the node's attribute mapping (the writer reads it via
`node.get ('title')`).
-/
/-! ### Character classes (Python 2 `re` on byte strings) -/
/-- Python regex `\s` (and `str.strip ()`): space, tab, LF, CR, FF, VT. -/
def isPySpace (c : Char) : Bool :=
  c = ' ' || c = '\t' || c = '\n' || c = '\r' || c = '\x0b' || c = '\x0c'

/-- ASCII digit. -/
def isDigitC (c : Char) : Bool := '0' ≤ c && c ≤ '9'

/-- ASCII letter, regex `[a-zA-Z]`. -/
def isAlphaC (c : Char) : Bool := ('a' ≤ c && c ≤ 'z') || ('A' ≤ c && c ≤ 'Z')

/-- Character class of `_nameRegex` = `[a-zA-Z0-9\-_\?\*\/]`
(reader.py line 23).  Note: no square brackets. -/
def isNameChar (c : Char) : Bool :=
  isAlphaC c || isDigitC c || c = '-' || c = '_' || c = '?' || c = '*' || c = '/'

/-! ### Small list utilities -/
/-- Replace the element at index `i` (no-op when out of range). -/
def listModify : List α → Nat → (α → α) → List α
  | [], _, _ => []
  | a :: as, 0, f => f a :: as
  | a :: as, n+1, f => a :: listModify as n f

/-- Decimal digit as a character. -/
def digitChar : Nat → Char
  | 0 => '0' | 1 => '1' | 2 => '2' | 3 => '3' | 4 => '4'
  | 5 => '5' | 6 => '6' | 7 => '7' | 8 => '8' | _ => '9'

def natCharsAux : Nat → Nat → List Char
  | 0, _ => []
  | fuel+1, n => if n = 0 then [] else natCharsAux fuel (n / 10) ++ [digitChar (n % 10)]

/-- Decimal rendering of a natural number (as Python `%s` / `%.3f` digits). -/
def natChars (n : Nat) : List Char := if n = 0 then ['0'] else natCharsAux (n+1) n

/-- Numeric value of a digit character. -/
def digitVal (c : Char) : Nat := c.toNat - '0'.toNat

/-- Value of a digit string (most significant first). -/
def digitsVal (ds : List Char) : Nat := ds.foldl (fun a c => 10 * a + digitVal c) 0

/-! ### Exact decimal numbers -/
/-- An exact decimal `m / 10^e`: the model of the Python floats produced by
`float (...)` on the decimal / negative-exponent-scientific numerals matched
by the source's regexes (all of which denote exact decimals). -/
structure Dc where
  m : Int
  e : Nat
deriving DecidableEq, Repr

/-- `rndAt k d` = the integer `n` with `n / 10^k` nearest to `d`
(half away from zero rounded up), i.e. the digits printed by `'%.<k>f' % d`.
Models C `printf` rounding on the exact decimal value. -/
def rndAt (k : Nat) (d : Dc) : Int :=
  Int.fdiv (2 * d.m * 10 ^ k + 10 ^ d.e) (2 * 10 ^ d.e)

/-! ### Attribute bags, nodes, branches, trees (external `phylo.core` API,
modelled from spec sections 3 and 6) -/
/-- An attribute value: a string (names, annotation values) or a number
(distances, supports). -/
inductive Val where
  | str : List Char → Val
  | num : Dc → Val
deriving DecidableEq, Repr

/-- A node's / branch's open-ended attribute mapping, in insertion order. -/
abbrev Attrs := List (List Char × Val)

/-- Dictionary lookup (first occurrence; keys are unique by construction). -/
def attrGet : Attrs → List Char → Option Val
  | [], _ => none
  | p :: rest, k => if p.1 = k then some p.2 else attrGet rest k

/-- Dictionary store: replace an existing key in place or append a new one
(Python dict assignment keeps the key's insertion position). -/
def attrSet : Attrs → List Char → Val → Attrs
  | [], k, v => [(k, v)]
  | p :: rest, k, v => if p.1 = k then (k, v) :: rest else p :: attrSet rest k v

/-- The tree being built: nodes are indexed by creation order, each branch is
`(parent id, child id, attributes)`.  Modelled from the spec's data model
(section 3): rooted graph of attribute-carrying nodes joined by branches. -/
structure PTree where
  nodes : List Attrs
  branches : List (Nat × Nat × Attrs)
  root : Option Nat
deriving DecidableEq, Repr

def emptyPTree : PTree := ⟨[], [], none⟩

/-- `Tree.add_root` / `Tree.add_node (parent)`: create a node (and, given a
parent, the connecting branch); returns (node id, created branch index). -/
def addNodeP (par : Option Nat) (tr : PTree) : Nat × Option Nat × PTree :=
  match par with
  | none =>
      (tr.nodes.length, none,
        { nodes := tr.nodes ++ [[]], branches := tr.branches,
          root := some tr.nodes.length })
  | some p =>
      (tr.nodes.length, some tr.branches.length,
        { nodes := tr.nodes ++ [[]],
          branches := tr.branches ++ [(p, tr.nodes.length, [])],
          root := tr.root })

/-- `node[key] = value` on node `i`. -/
def setNodeAttr (tr : PTree) (i : Nat) (k : List Char) (v : Val) : PTree :=
  { tr with nodes := listModify tr.nodes i (fun a => attrSet a k v) }

/-- `branch[key] = value` on branch `i`. -/
def setBranchAttr (tr : PTree) (i : Nat) (k : List Char) (v : Val) : PTree :=
  { tr with branches := listModify tr.branches i (fun b => (b.1, b.2.1, attrSet b.2.2 k v)) }

/-- `Tree.count_nodes ()` (external API, modelled): number of nodes. -/
def countNodes (tr : PTree) : Nat := tr.nodes.length

/-- `Tree.count_branches ()` (external API, modelled): number of branches. -/
def countBranches (tr : PTree) : Nat := tr.branches.length

/-- `Tree.is_node_tip (n)` (external API, modelled from the spec glossary:
a tip is a leaf, i.e. a node with no child branches). -/
def isNodeTip (tr : PTree) (n : Nat) : Bool :=
  !(tr.branches.any (fun b => b.1 = n))

/-- Neighbours contributed by a branch list, in order. -/
def adjOf (B : List (Nat × Nat × Attrs)) (n : Nat) : List Nat :=
  B.foldr
    (fun b acc => (if b.1 = n then [b.2.1] else if b.2.1 = n then [b.1] else []) ++ acc) []

/-- `Tree.iter_adjacent_nodes (n)` (external API, modelled): both endpoints'
neighbours, in branch creation order. -/
def adjacentNodes (tr : PTree) (n : Nat) : List Nat := adjOf tr.branches n

/-- `Tree.get_distance (n, p)` (external API, modelled): the `distance`
attribute of the branch joining `n` and `p`. -/
def getDistance (tr : PTree) (n p : Nat) : Option Val :=
  match tr.branches.find? (fun b => (b.1 = p && b.2.1 = n) || (b.1 = n && b.2.1 = p)) with
  | some b => attrGet b.2.2 (String.toList "distance")
  | none => none

/-- Python `a or b` for attribute lookups (`node.get ('title') or
node.get ('name')`, writer.py line 73): falls through on `None`, the empty
string and `0.0`, which are all falsy. -/
def orFalsy (a b : Option Val) : Option Val :=
  match a with
  | some (.str w) => if w = [] then b else some (.str w)
  | some (.num d) => if d.m = 0 then b else some (.num d)
  | none => b

/-! ### Input normalization (`NewickReader._read`, reader.py lines 110-124) -/
/-- Python `str.strip ()`. -/
def pstrip (s : List Char) : List Char :=
  ((s.dropWhile isPySpace).reverse.dropWhile isPySpace).reverse

def collapseGo (prevSpace : Bool) : List Char → List Char
  | [] => []
  | c :: rest =>
      if isPySpace c then
        (if prevSpace then [] else [' ']) ++ collapseGo true rest
      else c :: collapseGo false rest

/-- `_cleanSpaceRegex.sub (' ', s)`: every maximal run of whitespace becomes
a single space (reader.py line 117). -/
def collapse (s : List Char) : List Char := collapseGo false s

/-- The normalization pipeline of `_read` (lines 113-117): strip flanking
whitespace, strip one trailing `;` and re-strip, collapse whitespace runs. -/
def normalizeStr (s : List Char) : List Char :=
  let t1 := pstrip s
  let t2 := if t1.getLast? = some ';' then pstrip t1.dropLast else t1
  collapse t2

def countChar (c : Char) (s : List Char) : Nat := (s.filter (fun x => x = c)).length

/-! ### Reader errors -/
/-- Parse failures.  The source raises `AssertionError` (for the empty-input,
brace-balance and end-brace asserts) and `ValueError` (from `dict (...)` on
annotation pairs lacking `=`); the spec's taxonomy (section 7) names them
`EmptyInputError`, `UnbalancedGroupingError`, `MalformedStructureError`,
`InvalidAnnotationError`.  `.fuel` is the embedding's recursion bound and
corresponds to no source behaviour; `.typeErr` models Python `TypeError`
(writer formatting of `None` / non-string names, non-numeric supports);
`.noRoot` marks the writer's rootless-tree centroid fallback, whose
computation lives in the external tree API and is not modelled. -/
inductive Err where
  | emptyInput
  | unbalanced
  | malformed : List Char → Err
  | badAnnPairs
  | typeErr
  | noRoot
  | fuel
deriving DecidableEq, Repr

/-! ### Cursor primitives -/
/-- `NewickReader._peek` (lines 137-141): read one char and seek back.  At end
of buffer the read returns `''` but the relative `seek (-1, 1)` still moves
the cursor back one place; the returned `none` models the `''` that compares
unequal to every character. -/
def peekC (full : List Char) (pos : Nat) : Option Char × Nat :=
  match full.get? pos with
  | some c => (some c, pos)
  | none => (none, pos - 1)

/-- `NewickReader._consumeLeadingSpace` (lines 143-149): read while the char
is `' '` (exactly a space: the input has been whitespace-collapsed), then seek
back one.  When the space run reaches end of buffer, the final read returns
`''` without advancing but the `seek (-1, 1)` still steps back, so the cursor
ends one place before the end. -/
def skipSpaces (full : List Char) (pos : Nat) : Nat :=
  let p := pos + ((full.drop pos).takeWhile (fun c => c = ' ')).length
  if p = full.length then p - 1 else p

/-! ### `_parseName` (lines 151-162) and its two regexes (lines 22-23) -/
/-- Match of `_quotedNameRegex` = `\s*'([^']*)'\s*` at the start of `s`:
returns the group and the total matched length. -/
def parseQuotedAt (s : List Char) : Option (List Char × Nat) :=
  let ws1 := s.takeWhile isPySpace
  match s.drop ws1.length with
  | '\'' :: s2 =>
      let content := s2.takeWhile (fun c => c ≠ '\'')
      match s2.drop content.length with
      | '\'' :: s4 =>
          let ws2 := s4.takeWhile isPySpace
          some (content, ws1.length + 1 + content.length + 1 + ws2.length)
      | _ => none
  | _ => none

/-- Match of `_nameRegex` = `\s*([a-zA-Z0-9\-_\?\*\/]+)\s*` at the start of
`s`. -/
def parseUnquotedAt (s : List Char) : Option (List Char × Nat) :=
  let ws1 := s.takeWhile isPySpace
  let content := (s.drop ws1.length).takeWhile isNameChar
  if content = [] then none
  else
    let ws2 := ((s.drop ws1.length).drop content.length).takeWhile isPySpace
    some (content, ws1.length + content.length + ws2.length)

/-- `_parseName`: try the quoted-name regex, then the unquoted-name regex;
on a match consume exactly the matched length. -/
def parseNameF (full : List Char) (pos : Nat) : Option (List Char) × Nat :=
  match parseQuotedAt (full.drop pos) with
  | some (g, len) => (some g, pos + len)
  | none =>
      match parseUnquotedAt (full.drop pos) with
      | some (g, len) => (some g, pos + len)
      | none => (none, pos)

/-! ### Numbers (`_distRegex`, line 25, and `_SUPPORTVAL_RE`, line 27)

`_distRegex` is `\s*:\s*(\-?\d\.\d+[eE]\-\d+|\-?0?\.\d+|\d+\.\d+|\d+)\s*`
(ordered alternation, greedy `+`); `_SUPPORTVAL_RE` is
`\s*(\-?0?\.\d+|\d+\.\d+|\d+)\s*`.  Each alternative is deterministic: a
maximal digit run can never be shortened to expose the following literal. -/
/-- Alternative `\-?\d\.\d+[eE]\-\d+`: one leading digit, fraction, negative
exponent.  Value `±d.f × 10^-x`, an exact decimal. -/
def distAlt1 (s : List Char) : Option (Dc × Nat) :=
  let sgn : Bool := s.head? = some '-'
  let s1 := if sgn then s.tail else s
  let n0 := if sgn then 1 else 0
  match s1 with
  | d :: '.' :: s2 =>
      if isDigitC d then
        let fr := s2.takeWhile isDigitC
        if fr = [] then none
        else
          match s2.drop fr.length with
          | e :: '-' :: s3 =>
              if e = 'e' || e = 'E' then
                let ex := s3.takeWhile isDigitC
                if ex = [] then none
                else
                  let mant : Int := (digitVal d * 10 ^ fr.length + digitsVal fr : Nat)
                  some (⟨if sgn then -mant else mant, fr.length + digitsVal ex⟩,
                    n0 + 2 + fr.length + 2 + ex.length)
              else none
          | _ => none
      else none
  | _ => none

/-- Alternative `\-?0?\.\d+`: optional sign, optional single `0`, point,
fraction. -/
def distAlt2 (s : List Char) : Option (Dc × Nat) :=
  let sgn : Bool := s.head? = some '-'
  let s1 := if sgn then s.tail else s
  let n0 := if sgn then 1 else 0
  match s1 with
  | '0' :: '.' :: s2 =>
      let fr := s2.takeWhile isDigitC
      if fr = [] then none
      else
        let mant : Int := (digitsVal fr : Nat)
        some (⟨if sgn then -mant else mant, fr.length⟩, n0 + 2 + fr.length)
  | '.' :: s2 =>
      let fr := s2.takeWhile isDigitC
      if fr = [] then none
      else
        let mant : Int := (digitsVal fr : Nat)
        some (⟨if sgn then -mant else mant, fr.length⟩, n0 + 1 + fr.length)
  | _ => none

/-- Alternative `\d+\.\d+` (no sign). -/
def distAlt3 (s : List Char) : Option (Dc × Nat) :=
  let ip := s.takeWhile isDigitC
  if ip = [] then none
  else
    match s.drop ip.length with
    | '.' :: s2 =>
        let fr := s2.takeWhile isDigitC
        if fr = [] then none
        else
          some (⟨(digitsVal ip * 10 ^ fr.length + digitsVal fr : Nat), fr.length⟩,
            ip.length + 1 + fr.length)
    | _ => none

/-- Alternative `\d+` (no sign, integer). -/
def distAlt4 (s : List Char) : Option (Dc × Nat) :=
  let ip := s.takeWhile isDigitC
  if ip = [] then none else some (⟨(digitsVal ip : Nat), 0⟩, ip.length)

/-- The full numeric alternation of `_distRegex`, tried in source order. -/
def parseNumber (s : List Char) : Option (Dc × Nat) :=
  match distAlt1 s with
  | some r => some r
  | none =>
      match distAlt2 s with
      | some r => some r
      | none =>
          match distAlt3 s with
          | some r => some r
          | none => distAlt4 s

/-- `_parseDist` (lines 164-171): match `\s*:\s*(number)\s*` at the cursor,
consume it, and return the numeric value. -/
def parseDistF (full : List Char) (pos : Nat) : Option Dc × Nat :=
  let s := full.drop pos
  let ws1 := s.takeWhile isPySpace
  match s.drop ws1.length with
  | ':' :: s1 =>
      let ws2 := s1.takeWhile isPySpace
      match parseNumber (s1.drop ws2.length) with
      | some (d, len) =>
          let ws3 := ((s1.drop ws2.length).drop len).takeWhile isPySpace
          (some d, pos + ws1.length + 1 + ws2.length + len + ws3.length)
      | none => (none, pos)
  | _ => (none, pos)

/-- `_parse_support_value` (lines 173-180): match
`\s*(\-?0?\.\d+|\d+\.\d+|\d+)\s*` at the cursor.  Its only call site
(line 223) is commented out in the source. -/
def parse_support_value (full : List Char) (pos : Nat) : Option Dc × Nat :=
  let s := full.drop pos
  let ws1 := s.takeWhile isPySpace
  let body := s.drop ws1.length
  let alt :=
    match distAlt2 body with
    | some r => some r
    | none =>
        match distAlt3 body with
        | some r => some r
        | none => distAlt4 body
  match alt with
  | some (d, len) =>
      let ws2 := ((s.drop ws1.length).drop len).takeWhile isPySpace
      (some d, pos + ws1.length + len + ws2.length)
  | none => (none, pos)

/-! ### Node annotations (`_parse_node_annotations`, lines 242-252, and its
regexes `_NODE_ANN_REGEX` = `^\s*\[\&([^\]]*)\]\s*` and `_ANN_LIST_SPLIT_RE`
= `,([a-zA-Z]+)`, lines 28-29) -/
/-- Match of `_NODE_ANN_REGEX` at the start of `s`: returns the bracket
content (group 1) and the total matched length. -/
def annMatchAt (s : List Char) : Option (List Char × Nat) :=
  let ws1 := s.takeWhile isPySpace
  match s.drop ws1.length with
  | '[' :: '&' :: s2 =>
      let content := s2.takeWhile (fun c => c ≠ ']')
      match s2.drop content.length with
      | ']' :: s4 =>
          let ws2 := s4.takeWhile isPySpace
          some (content, ws1.length + 2 + content.length + 1 + ws2.length)
      | _ => none
  | _ => none

/-- `_ANN_LIST_SPLIT_RE.sub (r'||\1', s)`: rewrite every `,<letters>` into
`||<letters>` (left to right; the skipped letter run contains no comma, so a
character-by-character scan is equivalent to the regex's non-overlapping
substitution). -/
def annSub : List Char → List Char
  | [] => []
  | ',' :: c :: rest =>
      if isAlphaC c then '|' :: '|' :: annSub (c :: rest)
      else ',' :: annSub (c :: rest)
  | c :: rest => c :: annSub rest

/-- Python `str.split ('||')`: split on non-overlapping occurrences, left to
right. -/
def splitBarsGo (acc : List Char) : List Char → List (List Char)
  | [] => [acc.reverse]
  | '|' :: '|' :: rest => acc.reverse :: splitBarsGo [] rest
  | c :: rest => splitBarsGo (c :: acc) rest

def splitBars (s : List Char) : List (List Char) := splitBarsGo [] s

/-- Python `x.split ('=', 1)` restricted to the two-element outcome: `none`
when `x` contains no `=` (in which case `dict (...)` raises `ValueError`). -/
def splitEq1 (x : List Char) : Option (List Char × List Char) :=
  let k := x.takeWhile (fun c => c ≠ '=')
  match x.drop k.length with
  | '=' :: v => some (k, v)
  | _ => none

/-- `_parse_node_annotations` (lines 242-252): match the annotation regex at
the cursor; when it matches, split the content into key/value pairs and merge
them into the node's attributes (`dict (...)` then `curr_node.update`; a pair
without `=` makes `dict` raise `ValueError`).  No match consumes nothing and
is no error. -/
def parse_node_anns (full : List Char) (nid : Nat) (tr : PTree) (pos : Nat) :
    Except Err (PTree × Nat) :=
  match annMatchAt (full.drop pos) with
  | none => .ok (tr, pos)
  | some (content, len) =>
      let anns := splitBars (annSub content)
      match anns.mapM splitEq1 with
      | none => .error .badAnnPairs
      | some prs =>
          .ok (prs.foldl (fun t p => setNodeAttr t nid p.1 (.str p.2)) tr, pos + len)

/-! ### The recursive node parser (`_parse_node`, lines 182-240) -/
/-- Sequencing of fallible steps (Python control flow: an uncaught exception
aborts the call). -/
def eb (x : Except Err α) (f : α → Except Err β) : Except Err β :=
  match x with
  | .error e => .error e
  | .ok a => f a

/-- The message of the end-brace assertion (lines 214-219):
`"can't find end brace in '%s...' at position %s '%s'"` filled with the first
ten characters of the buffer, the cursor offset, and ten characters at the
offset. -/
def bmPre : List Char := String.toList "can" ++ '\'' :: String.toList "t find end brace in " ++ ['\'']

def bmMid : List Char := String.toList "..." ++ '\'' :: String.toList " at position "

def bmCtx : List Char := [' ', '\'']

def braceMsg (full : List Char) (posn : Nat) : List Char :=
  bmPre ++ full.take 10 ++ bmMid ++ natChars posn ++ bmCtx ++
    ((full.drop posn).take 10) ++ ['\'']

def kTitle : List Char := String.toList "title"

def kDistance : List Char := String.toList "distance"

def kSupport : List Char := String.toList "support"

def kName : List Char := String.toList "name"

/-- Attach a parsed name as the node's `title` (reader.py lines 227-229). -/
def titleUpd (nid : Nat) (tr : PTree) : Option (List Char) → PTree
  | some w => setNodeAttr tr nid kTitle (.str w)
  | none => tr

/-- Attach a parsed distance (reader.py lines 234-239): to the connecting
branch when the node has a parent (`if par_node:`), else to the node. -/
def distUpd (par : Option Nat) (nid : Nat) (bidx : Option Nat) (tr : PTree) :
    Option Dc → PTree
  | some q =>
      if par.isSome then
        match bidx with
        | some b => setBranchAttr tr b kDistance (.num q)
        | none => tr
      else setNodeAttr tr nid kDistance (.num q)
  | none => tr

/-- The tail of `_parse_node` after the optional child group (lines 221-240):
support-value parsing is present in the source only as commented-out code
(lines 222-225), then the optional name is attached as `title`, the optional
annotation block is merged (when the `node_annotations` dialect option is on,
line 231), and the optional distance goes to the connecting branch when the
node has a parent (`if par_node:`) and to the node itself at the root. -/
def nodeTail (ann : Bool) (full : List Char) (par : Option Nat) (nid : Nat)
    (bidx : Option Nat) (tr : PTree) (pos : Nat) : Except Err (Nat × PTree × Nat) :=
  let nm := parseNameF full pos
  let tr1 := titleUpd nid tr nm.1
  eb (if ann then parse_node_anns full nid tr1 nm.2 else .ok (tr1, nm.2)) (fun x =>
    let dq := parseDistF full x.2
    .ok (nid, distUpd par nid bidx x.1 dq.1, dq.2))

/-- The `while (self._peek () == ',')` child loop of `_parse_node`
(lines 207-210): consume the comma, parse another child with the passed
parser, skip spaces, repeat; stops (without consuming) at any other
lookahead.  `pn` is the recursive `_parse_node` call bound to the parent
node. -/
def childLoop (full : List Char)
    (pn : PTree → Nat → Except Err (Nat × PTree × Nat)) :
    Nat → PTree → Nat → Except Err (PTree × Nat)
  | 0, _, _ => .error .fuel
  | fuel+1, tr, pos =>
      let pk := peekC full pos
      if pk.1 = some ',' then
        eb (pn tr (pk.2 + 1)) (fun x => childLoop full pn fuel x.2.1 (skipSpaces full x.2.2))
      else .ok (tr, pk.2)

/-- `_parse_node` (lines 182-240): create the node (root, or node plus
incoming branch), skip spaces; on a `(` lookahead consume it, parse the first
child, run the comma loop, skip spaces and require `)` (the failing assertion
carries `braceMsg`), consume it; then run the common tail (name, annotations,
distance).  The `fuel` argument bounds the recursion depth of the embedding
and is chosen large enough by `readL`. -/
def parse_node (ann : Bool) (full : List Char) :
    Nat → Option Nat → PTree → Nat → Except Err (Nat × PTree × Nat)
  | 0, _, _, _ => .error .fuel
  | fuel+1, par, tr0, pos0 =>
      let r := addNodeP par tr0
      let nid := r.1
      let bidx := r.2.1
      let tr1 := r.2.2
      let posA := skipSpaces full pos0
      let pk := peekC full posA
      if pk.1 = some '(' then
        eb (parse_node ann full fuel (some nid) tr1 (pk.2 + 1)) (fun x =>
          eb (childLoop full (fun tr p => parse_node ann full fuel (some nid) tr p)
              fuel x.2.1 (skipSpaces full x.2.2)) (fun y =>
            let posn := skipSpaces full y.2
            let pk2 := peekC full posn
            if pk2.1 = some ')' then nodeTail ann full par nid bidx y.1 (pk2.2 + 1)
            else .error (.malformed (braceMsg full posn))))
      else nodeTail ann full par nid bidx tr1 pk.2

/-- `_read` (lines 97-135): read and normalize the string, fail on an empty
result, run the (defective: it counts `(` on both sides, lines 120-121)
brace-balance assertion, then parse a single node as root and return the
tree.  The final cursor position is discarded: trailing unconsumed text is
ignored. -/
def readL (ann : Bool) (s : List Char) : Except Err PTree :=
  let t := normalizeStr s
  if t = [] then .error .emptyInput
  else
    if countChar '(' t = countChar '(' t then
      eb (parse_node ann t (2 * t.length + 4) none emptyPTree 0) (fun x => .ok x.2.1)
    else .error .unbalanced

/-! ### The writer (`Writer`, writer.py) -/
/-- `'%.<k>f' % d` (writer.py line 55: `self._dist_format = '%.3f'`, line 56:
`self._support_format = '%.2f'`): fixed-point rendering of the rounded value.
(The sign is taken from the rounded integer; C `printf` would print `-0.000`
for tiny negative values, which reparses to the same number.) -/
def fmtFixed (k : Nat) (d : Dc) : List Char :=
  let n := rndAt k d
  let a := n.natAbs
  let ip := natChars (a / 10 ^ k)
  let fp := natChars (a % 10 ^ k)
  (if n < 0 then ['-'] else []) ++ ip ++
    '.' :: (List.replicate (k - fp.length) '0' ++ fp)

/-- `_quotedNameRegex.search (name)` with pattern `\s*'[^']*'\s*`
(writer.py line 27): succeeds exactly when some substring `'...'` (two quotes
with no quote between) occurs, i.e. when the name contains two single
quotes. -/
def hasQuotedRun (w : List Char) : Bool :=
  match w.dropWhile (fun c => c ≠ '\'') with
  | _ :: rest => rest.any (fun c => c = '\'')
  | [] => false

/-- `_spacesInNameRegex.search (name)` with pattern `[\s\,]+`
(writer.py line 28): some whitespace character or comma occurs. -/
def hasSpaceComma (w : List Char) : Bool :=
  w.any (fun c => isPySpace c || c = ',')

/-- The tip-name quoting logic of `_writeNode` (writer.py lines 74-77): if
the name has no quoted run and contains whitespace or a comma, wrap it in
single quotes; otherwise emit it unchanged. -/
def writerTipName (w : List Char) : List Char :=
  if hasQuotedRun w then w
  else if hasSpaceComma w then '\'' :: w ++ ['\'']
  else w

/-- The loop over `children` in `_writeNode` (lines 84-90), with the
recursive `_writeNode` call passed in: emit every child. -/
def writeChildren (wn : Nat → Except Err (List Char)) :
    List Nat → Except Err (List (List Char))
  | [] => .ok []
  | c :: cs =>
      eb (wn c) (fun s => eb (writeChildren wn cs) (fun ss => .ok (s :: ss)))

/-- `Writer._writeNode` (writer.py lines 63-102).  A tip emits its quoted
name (`title`, falling back on `name`; a missing or non-string name makes
the regex search raise `TypeError`).  An internal node emits `(`, its
children (all adjacent nodes except the one arrived from) separated by
`', '`, `)`, then its `support` attribute in the `%.2f` format if present.
Finally the distance: the branch distance to the parent (via
`get_distance`), or the node's own `distance` attribute at the root; absent
distances emit nothing. -/
def writeNode (tr : PTree) : Nat → Nat → Option Nat → Except Err (List Char)
  | 0, _, _ => .error .fuel
  | fuel+1, n, parent =>
      let structPart : Except Err (List Char) :=
        if isNodeTip tr n then
          match orFalsy (attrGet (tr.nodes.getD n []) kTitle)
              (attrGet (tr.nodes.getD n []) kName) with
          | some (.str w) => .ok (writerTipName w)
          | some (.num _) => .error .typeErr
          | none => .error .typeErr
        else
          let children := (adjacentNodes tr n).filter (fun m => parent ≠ some m)
          eb (writeChildren (fun c => writeNode tr fuel c (some n)) children) (fun parts =>
            match attrGet (tr.nodes.getD n []) kSupport with
            | some (.num d) =>
                .ok ('(' :: List.intercalate (String.toList ", ") parts ++
                  ')' :: fmtFixed 2 d)
            | some (.str _) => .error .typeErr
            | none => .ok ('(' :: List.intercalate (String.toList ", ") parts ++ [')']))
      eb structPart (fun s1 =>
        let distPart : Except Err (List Char) :=
          match parent with
          | some p =>
              match getDistance tr n p with
              | some (.num d) => .ok (':' :: fmtFixed 3 d)
              | some (.str _) => .error .typeErr
              | none => .ok []
          | none =>
              match attrGet (tr.nodes.getD n []) kDistance with
              | some (.num d) => .ok (':' :: fmtFixed 3 d)
              | some (.str _) => .error .typeErr
              | none => .ok []
        eb distPart (fun s2 => .ok (s1 ++ s2)))

/-- `Writer._write` (writer.py lines 47-61): write the tree from its root.
The source's fallback for a rootless tree picks a centroid via the external
`get_centroid_nodes` API, which is not modelled (`.noRoot`); every claim
under study concerns rooted trees. -/
def write (tr : PTree) : Except Err (List Char) :=
  match tr.root with
  | some r => writeNode tr (tr.nodes.length + 1) r none
  | none => .error .noRoot

deriving instance DecidableEq for Except

/-! ### Abstract tree shapes

`NT` is the inductive shape of the trees this library round-trips: a node
with an optional title, an optional distance (the incoming branch's when the
node has a parent, the node's own attribute at the root) and a list of child
subtrees, in creation order.  `flattenT` rebuilds from a shape exactly the
`PTree` that `_parse_node` builds (same `addNodeP` / attribute-setting
primitives in the same order), so the round-trip theorem can be stated by
structural induction over shapes. -/
mutual
inductive NT where
  | node : Option (List Char) → Option Dc → NTL → NT
deriving DecidableEq
inductive NTL where
  | nil : NTL
  | cons : NT → NTL → NTL
deriving DecidableEq
end

mutual
def sizeT : NT → Nat
  | .node _ _ ch => 1 + sizeL ch
def sizeL : NTL → Nat
  | .nil => 0
  | .cons c cs => sizeT c + sizeL cs
end

mutual
/-- Number of children. -/
def lenL : NTL → Nat
  | .nil => 0
  | .cons _ cs => 1 + lenL cs
end

mutual
/-- Rebuild a subtree into a growing `PTree` exactly as `_parse_node` does:
create the node (and incoming branch), recurse into the children in order,
then set `title` and finally the distance (branch attribute with a parent,
node attribute at the root). -/
def flattenT (par : Option Nat) (tr : PTree) : NT → PTree
  | .node ti d ch =>
      let r := addNodeP par tr
      let tr2 := flattenL r.1 r.2.2 ch
      distUpd par r.1 r.2.1 (titleUpd r.1 tr2 ti) d
def flattenL (nid : Nat) (tr : PTree) : NTL → PTree
  | .nil => tr
  | .cons c cs => flattenL nid (flattenT (some nid) tr c) cs
end

def flatten (t : NT) : PTree := flattenT none emptyPTree t

/-- The writer's text for an optional distance: `:` plus the `%.3f`
rendering. -/
def emitDist : Option Dc → List Char
  | some q => ':' :: fmtFixed 3 q
  | none => []

mutual
/-- The Newick text of a shape, as the writer emits it: a tip is its title,
an internal node is `(`children`)` joined by `, `; then `:`distance in the
`%.3f` format. -/
def emitT : NT → List Char
  | .node ti d ch =>
      (match ch with
       | .nil => (match ti with | some w => w | none => [])
       | .cons _ _ => '(' :: emitL ch ++ [')']) ++ emitDist d
def emitL : NTL → List Char
  | .nil => []
  | .cons c cs => emitT c ++ emitSeg cs
def emitSeg : NTL → List Char
  | .nil => []
  | .cons c cs => ',' :: ' ' :: (emitT c ++ emitSeg cs)
end

/-- A distance survives one write/re-read cycle exactly when its `%.3f`
rendering matches `_distRegex` again, i.e. when the rounded value is greater
than `-1` (the regex has no signed alternative with a nonzero integer
part). -/
def distOK : Option Dc → Bool
  | none => true
  | some d => -1000 < rndAt 3 d

mutual
/-- The round-trippable shapes: every tip carries a nonempty unquoted-safe
title, internal nodes are untitled (the writer never emits an internal
node's title) and have at least one child, and every distance re-parses. -/
def writableT : NT → Bool
  | .node ti d ch =>
      (match ch with
       | .nil => (match ti with
           | some w => !w.isEmpty && w.all isNameChar
           | none => false)
       | .cons _ _ => ti.isNone) &&
      distOK d && writableL ch
def writableL : NTL → Bool
  | .nil => true
  | .cons c cs => writableT c && writableL cs
end

mutual
/-- Round every distance to the three decimals that `%.3f` keeps. -/
def mapRoundT : NT → NT
  | .node ti d ch => .node ti (d.map (fun q => ⟨rndAt 3 q, 3⟩)) (mapRoundL ch)
def mapRoundL : NTL → NTL
  | .nil => .nil
  | .cons c cs => .cons (mapRoundT c) (mapRoundL cs)
end

/-- Head-condition for a suffix: empty, or starting with a character that is
not a space (so regex `\s*` prefixes stop at once). -/
def headNotSpace : List Char → Prop
  | [] => True
  | c :: _ => isPySpace c = false

/-! ### Which errors the node parser can raise

Every failure inside `_parse_node` is either the end-brace assertion (whose
message is `braceMsg` at some offset of the parsed buffer), the annotation
`ValueError`, or the embedding's fuel bound.  In particular the parser never
raises the empty-input or unbalanced-grouping assertions of `_read`. -/
def readerErrShape (full : List Char) : Err → Prop
  | .fuel => True
  | .malformed m => ∃ p, m = braceMsg full p
  | .badAnnPairs => True
  | _ => False

/-! ### With annotations off, the parser stores only `title` on nodes and
`distance` on the root node and on branches -/
/-- Invariant: no node carries a `support` attribute, and no non-root node
carries a `distance` attribute. -/
def RInv (tr : PTree) : Prop :=
  (∀ i, attrGet ((tr.nodes.get? i).getD []) kSupport = none) ∧
  (∀ i, some i ≠ tr.root → attrGet ((tr.nodes.get? i).getD []) kDistance = none)

/-- Stop-suffix: what follows a written distance (`, ` separator, `)`, or end
of string). -/
def stopRest (rest : List Char) : Prop :=
  rest = [] ∨ ∃ c r, rest = c :: r ∧ (c = ',' ∨ c = ')')

/-! ### The writer's output is already normalized -/
/-- Whitespace discipline: every whitespace character is a single `' '` not
preceded by whitespace (`flag` = previous character was whitespace). -/
def wsClean : Bool → List Char → Bool
  | _, [] => true
  | prev, c :: rest =>
      if isPySpace c then (!prev && c = ' ') && wsClean true rest
      else wsClean false rest

/-- All characters the writer puts into a node body are non-whitespace other
than the single space of the `', '` separator. -/
def goodStr (s : List Char) : Prop :=
  (∀ c, s.head? = some c → isPySpace c = false) ∧
  (∀ c, s.getLast? = some c → isPySpace c = false ∧ c ≠ ';') ∧
  wsClean false s = true

/-! ### The shape of a flattened tree -/
/-- The attribute list `_parse_node` leaves on a node: `title` first (set
during name parsing), then `distance` (root only). -/
def nodeAttrs (ti : Option (List Char)) (d : Option Dc) : Attrs :=
  (match ti with | some w => [(kTitle, .str w)] | none => []) ++
  (match d with | some q => [(kDistance, .num q)] | none => [])

def branchAttrs (d : Option Dc) : Attrs :=
  match d with | some q => [(kDistance, .num q)] | none => []

mutual
/-- The node-attribute lists of a subtree, in creation (preorder) order. -/
def nodesOfT (isRoot : Bool) : NT → List Attrs
  | .node ti d ch => nodeAttrs ti (if isRoot then d else none) :: nodesOfL ch
def nodesOfL : NTL → List Attrs
  | .nil => []
  | .cons c cs => nodesOfT false c ++ nodesOfL cs
end

mutual
/-- The branches of a subtree rooted at node id `base` with parent `par`, in
creation order: the incoming branch (if any), then the children's. -/
def branchesOfT (base : Nat) (par : Option Nat) : NT → List (Nat × Nat × Attrs)
  | .node _ d ch =>
      (match par with
       | some p => [(p, base, branchAttrs d)]
       | none => []) ++ branchesOfL (base + 1) base ch
def branchesOfL (base nid : Nat) : NTL → List (Nat × Nat × Attrs)
  | .nil => []
  | .cons c cs => branchesOfT base (some nid) c ++ branchesOfL (base + sizeT c) nid cs
end

/-- Node ids of the children of a node whose first child gets id `base`. -/
def childBases : Nat → NTL → List Nat
  | _, .nil => []
  | base, .cons c cs => base :: childBases (base + sizeT c) cs

def emitParts : NTL → List (List Char)
  | .nil => []
  | .cons c cs => emitT c :: emitParts cs

/-- The `dist` part of `_writeNode` (writer.py lines 96-102), named for the
proofs. -/
def distPartDef (tr : PTree) (n : Nat) : Option Nat → Except Err (List Char)
  | some p =>
      match getDistance tr n p with
      | some (.num d) => .ok (':' :: fmtFixed 3 d)
      | some (.str _) => .error .typeErr
      | none => .ok []
  | none =>
      match attrGet (tr.nodes.getD n []) kDistance with
      | some (.num d) => .ok (':' :: fmtFixed 3 d)
      | some (.str _) => .error .typeErr
      | none => .ok []

/-- The structural part of `_writeNode` (writer.py lines 65-95), named for the
proofs. -/
def structPartDef (tr : PTree) (fuel n : Nat) (parent : Option Nat) :
    Except Err (List Char) :=
  if isNodeTip tr n then
    match orFalsy (attrGet (tr.nodes.getD n []) kTitle)
        (attrGet (tr.nodes.getD n []) kName) with
    | some (.str w) => .ok (writerTipName w)
    | some (.num _) => .error .typeErr
    | none => .error .typeErr
  else
    let children := (adjacentNodes tr n).filter (fun m => parent ≠ some m)
    eb (writeChildren (fun c => writeNode tr fuel c (some n)) children) (fun parts =>
      match attrGet (tr.nodes.getD n []) kSupport with
      | some (.num d) =>
          .ok ('(' :: List.intercalate (String.toList ", ") parts ++
            ')' :: fmtFixed 2 d)
      | some (.str _) => .error .typeErr
      | none => .ok ('(' :: List.intercalate (String.toList ", ") parts ++ [')']))

/-! ### Rounding a flattened tree's attributes -/
/-- Round a numeric attribute value to the three decimals the `%.3f` distance
format keeps; strings are untouched.  This is the precision at which the
round-trip property compares attribute values. -/
def roundVal : Val → Val
  | .num q => .num ⟨rndAt 3 q, 3⟩
  | .str w => .str w

def roundAttrs (a : Attrs) : Attrs := a.map (fun p => (p.1, roundVal p.2))

/-! ### The claims -/
/-- The tree the reader gives for `"(A:1.0)B:2.0"`. -/
def rtT1 : PTree :=
  ⟨[[(kTitle, .str ['B']), (kDistance, .num ⟨20, 1⟩)], [(kTitle, .str ['A'])]],
   [(0, 1, [(kDistance, .num ⟨10, 1⟩)])], some 0⟩

/-- The tree the reader gives for the written form `"(A:1.000):2.000"`: the
internal title `B` is gone. -/
def rtT2 : PTree :=
  ⟨[[(kDistance, .num ⟨2000, 3⟩)], [(kTitle, .str ['A'])]],
   [(0, 1, [(kDistance, .num ⟨1000, 3⟩)])], some 0⟩

/-- A writable shape: root with distance 0.123, one tip `A` with branch
distance 0.5. -/
def c1t : NT :=
  .node none (some ⟨123, 3⟩) (.cons (.node (some ['A']) (some ⟨5, 1⟩) .nil) .nil)

/-- The tree the reader gives for `"(A)"`. -/
def c2tree : PTree := ⟨[[], [(kTitle, .str ['A'])]], [(0, 1, [])], some 0⟩

/-- The spec's distance example, with the quoted title built as characters. -/
def fooBarInput : List Char :=
  ['(', '\''] ++ String.toList "Foo bar" ++ ['\''] ++
    String.toList ":1.11, (B, C):2.76e-1):0.123"

/-- The tree the reader gives for the spec's distance example. -/
def fooBarTree : PTree :=
  ⟨[[(kDistance, .num ⟨123, 3⟩)],
    [(kTitle, .str (String.toList "Foo bar"))],
    [],
    [(kTitle, .str ['B'])],
    [(kTitle, .str ['C'])]],
   [(0, 1, [(kDistance, .num ⟨111, 2⟩)]),
    (0, 2, [(kDistance, .num ⟨276, 3⟩)]),
    (2, 3, []),
    (2, 4, [])], some 0⟩

/-- A name with an embedded quoted run and a space: not itself quoted (it
neither starts nor ends with a quote), it contains whitespace, yet the writer
emits it unchanged — the `already quoted` test is `contains a quoted run
anywhere`, not `is a quoted name`. -/
def quotedSpaceName : List Char := ['a', '\'', 'b', '\'', ' ', 'c']

/-- The shape of `"(A)"`. -/
def c10t : NT := .node none none (.cons (.node (some ['A']) none .nil) .nil)

/-! ## Theorems -/

@[simp] theorem eb_ok (a : α) (f : α → Except Err β) : eb (.ok a) f = f a := rfl

@[simp] theorem eb_error (e : Err) (f : α → Except Err β) :
    eb (.error e : Except Err α) f = .error e := rfl

theorem eb_error_iff {x : Except Err α} {f : α → Except Err β} {e : Err} :
    eb x f = .error e ↔ x = .error e ∨ ∃ a, x = .ok a ∧ f a = .error e := by
  cases x with
  | error e' => simp [eb]
  | ok a => simp [eb]

/-! ### Generic list lemmas -/
theorem head?_drop (l : List α) (n : Nat) : (l.drop n).head? = l.get? n := by
  induction l generalizing n with
  | nil => simp
  | cons a l ih => cases n <;> simp [ih]

theorem takeWhile_append_all (p : α → Bool) (xs ys : List α)
    (h : ∀ c ∈ xs, p c = true) :
    (xs ++ ys).takeWhile p = xs ++ ys.takeWhile p := by
  induction xs with
  | nil => simp
  | cons a l ih =>
      simp only [List.cons_append, List.takeWhile_cons, h a (by simp)]
      simp [ih (fun c hc => h c (by simp [hc]))]

theorem takeWhile_nil_of_head (p : α → Bool) (c : α) (ys : List α) (h : p c = false) :
    (c :: ys).takeWhile p = [] := by simp [List.takeWhile_cons, h]

theorem takeWhile_space_nil (rest : List Char) (h : headNotSpace rest) :
    rest.takeWhile isPySpace = [] := by
  cases rest with
  | nil => rfl
  | cons c r => exact takeWhile_nil_of_head _ _ _ h

/-! ### Character class facts -/
theorem space_not_nameChar {c : Char} (h : isPySpace c = true) : isNameChar c = false := by
  simp only [isPySpace, Bool.or_eq_true, decide_eq_true_eq] at h
  rcases h with ((((h | h) | h) | h) | h) | h <;> subst h <;> decide

theorem nameChar_not_space {c : Char} (h : isNameChar c = true) : isPySpace c = false := by
  cases hs : isPySpace c with
  | false => rfl
  | true => rw [space_not_nameChar hs] at h; cases h

theorem nameChar_ne_quote {c : Char} (h : isNameChar c = true) : c ≠ '\'' := by
  intro he; subst he; cases h

theorem nameChar_space_char : isNameChar ' ' = false := by decide

/-! ### Cursor primitive lemmas -/
theorem drop_len_lt {full : List Char} {pos : Nat} {c : Char} {rest : List Char}
    (h : full.drop pos = c :: rest) : pos < full.length := by
  by_contra hle
  rw [List.drop_eq_nil_of_le (Nat.le_of_not_lt hle)] at h
  cases h

theorem peekC_cons {full : List Char} {pos : Nat} {c : Char} {rest : List Char}
    (h : full.drop pos = c :: rest) : peekC full pos = (some c, pos) := by
  unfold peekC
  rw [← head?_drop, h]
  rfl

theorem length_eq_of_drop {full : List Char} {pos : Nat} {s : List Char}
    (h : full.drop pos = s) (hlt : pos ≤ full.length) :
    full.length = pos + s.length := by
  have := List.length_drop pos full
  rw [h] at this
  omega

theorem drop_add (full : List Char) (pos k : Nat) :
    full.drop (pos + k) = (full.drop pos).drop k := (List.drop_drop k pos full).symm

/-- `_consumeLeadingSpace` on `k` spaces followed by a non-space character
advances exactly past the spaces. -/
theorem skipSpaces_spec {full : List Char} {pos k : Nat} {c : Char} {rest : List Char}
    (h : full.drop pos = List.replicate k ' ' ++ c :: rest) (hc : c ≠ ' ') :
    skipSpaces full pos = pos + k := by
  unfold skipSpaces
  have hall : ∀ x ∈ List.replicate k ' ', (x = ' ' : Bool) = true := by
    intro x hx; simp [List.eq_of_mem_replicate hx]
  have htw : (full.drop pos).takeWhile (fun x => x = ' ') = List.replicate k ' ' := by
    rw [h, takeWhile_append_all _ _ _ hall, takeWhile_nil_of_head _ _ _ (by simp [hc]),
      List.append_nil]
  rw [htw, List.length_replicate]
  have hlt : pos < full.length := by
    by_contra hle
    rw [List.drop_eq_nil_of_le (Nat.le_of_not_lt hle)] at h
    exact absurd h.symm (List.append_ne_nil_of_right_ne_nil _ (by simp))
  have hlen := length_eq_of_drop h (Nat.le_of_lt hlt)
  simp at hlen
  have : pos + k ≠ full.length := by omega
  simp [this]

/-- Convenient corollary: non-space head means no motion. -/
theorem skipSpaces_id {full : List Char} {pos : Nat} {c : Char} {rest : List Char}
    (h : full.drop pos = c :: rest) (hc : c ≠ ' ') : skipSpaces full pos = pos := by
  have := @skipSpaces_spec full pos 0 c rest (by simpa using h) hc
  simpa using this

theorem parse_node_anns_err {full : List Char} {nid : Nat} {tr : PTree} {pos : Nat}
    {e : Err} (h : parse_node_anns full nid tr pos = .error e) : e = .badAnnPairs := by
  unfold parse_node_anns at h
  split at h
  · cases h
  · dsimp only at h
    split at h
    · cases h; rfl
    · cases h

theorem nodeTail_err {ann : Bool} {full : List Char} {par : Option Nat} {nid : Nat}
    {bidx : Option Nat} {tr : PTree} {pos : Nat} {e : Err}
    (h : nodeTail ann full par nid bidx tr pos = .error e) : readerErrShape full e := by
  unfold nodeTail at h
  rw [eb_error_iff] at h
  rcases h with h | ⟨a, _, h⟩
  · split at h
    · rw [parse_node_anns_err h]; trivial
    · cases h
  · dsimp only at h; cases h

theorem childLoop_err {full : List Char}
    {pn : PTree → Nat → Except Err (Nat × PTree × Nat)}
    (hpn : ∀ tr p r, pn tr p = .error r → readerErrShape full r) :
    ∀ fuel tr pos e, childLoop full pn fuel tr pos = .error e → readerErrShape full e := by
  intro fuel
  induction fuel with
  | zero => intro tr pos e h; cases h; trivial
  | succ fuel ih =>
      intro tr pos e h
      unfold childLoop at h
      dsimp only at h
      split at h
      · rw [eb_error_iff] at h
        rcases h with h | ⟨a, _, h⟩
        · exact hpn _ _ _ h
        · exact ih _ _ _ h
      · cases h

theorem parse_node_err {ann : Bool} {full : List Char} :
    ∀ fuel par tr pos e, parse_node ann full fuel par tr pos = .error e →
      readerErrShape full e := by
  intro fuel
  induction fuel with
  | zero => intro par tr pos e h; cases h; trivial
  | succ fuel ih =>
      intro par tr pos e h
      unfold parse_node at h
      dsimp only at h
      split at h
      · rw [eb_error_iff] at h
        rcases h with h | ⟨a, _, h⟩
        · exact ih _ _ _ _ h
        · rw [eb_error_iff] at h
          rcases h with h | ⟨b, _, h⟩
          · exact childLoop_err (fun tr p r hr => ih _ _ _ _ hr) _ _ _ _ h
          · split at h
            · exact nodeTail_err h
            · cases h; exact ⟨_, rfl⟩
      · exact nodeTail_err h

/-- `_read` fails with the empty-input assertion exactly on inputs whose
normalization is empty; otherwise its errors are those of `_parse_node`. -/
theorem readL_err {ann : Bool} {s : List Char} {e : Err}
    (h : readL ann s = .error e) :
    (e = .emptyInput ∧ normalizeStr s = []) ∨
      (normalizeStr s ≠ [] ∧ readerErrShape (normalizeStr s) e) := by
  unfold readL at h
  dsimp only at h
  split at h
  · cases h
    exact Or.inl ⟨rfl, by assumption⟩
  · rw [if_pos rfl, eb_error_iff] at h
    rcases h with h | ⟨a, _, h⟩
    · exact Or.inr ⟨by assumption, parse_node_err _ _ _ _ _ h⟩
    · cases h

/-! ### Facts about the end-brace message -/
theorem take10_infix_braceMsg (full : List Char) (p : Nat) :
    full.take 10 <:+: braceMsg full p :=
  ⟨bmPre, bmMid ++ natChars p ++ bmCtx ++ ((full.drop p).take 10) ++ ['\''],
    by simp [braceMsg, List.append_assoc]⟩

theorem posn_infix_braceMsg (full : List Char) (p : Nat) :
    natChars p <:+: braceMsg full p :=
  ⟨bmPre ++ full.take 10 ++ bmMid, bmCtx ++ ((full.drop p).take 10) ++ ['\''],
    by simp [braceMsg, List.append_assoc]⟩

/-! ### Attribute-map and node-list lemmas -/
theorem attrGet_attrSet_ne (a : Attrs) {k k' : List Char} (v : Val) (h : k' ≠ k) :
    attrGet (attrSet a k' v) k = attrGet a k := by
  induction a with
  | nil => simp [attrSet, attrGet, h]
  | cons p rest ih =>
      unfold attrSet
      by_cases hp : p.1 = k'
      · rw [if_pos hp]
        unfold attrGet
        rw [if_neg h, if_neg (by rw [hp]; exact h)]
  
      · rw [if_neg hp]
        unfold attrGet
        by_cases hk : p.1 = k
        · rw [if_pos hk, if_pos hk]
        · rw [if_neg hk, if_neg hk]; exact ih

theorem attrGet_attrSet_self (a : Attrs) (k : List Char) (v : Val) :
    attrGet (attrSet a k v) k = some v := by
  induction a with
  | nil => simp [attrSet, attrGet]
  | cons p rest ih =>
      unfold attrSet
      by_cases hp : p.1 = k
      · rw [if_pos hp]; simp [attrGet]
      · rw [if_neg hp]
        unfold attrGet
        rw [if_neg hp]
        exact ih

theorem listModify_get?_ne (l : List α) (f : α → α) {i j : Nat} (h : i ≠ j) :
    (listModify l i f).get? j = l.get? j := by
  induction l generalizing i j with
  | nil => rfl
  | cons a rest ih =>
      cases i with
      | zero =>
          cases j with
          | zero => exact absurd rfl h
          | succ j => rfl
      | succ i =>
          cases j with
          | zero => rfl
          | succ j => exact ih (fun he => h (by rw [he]))

theorem listModify_get?_eq (l : List α) (f : α → α) (i : Nat) :
    (listModify l i f).get? i = (l.get? i).map f := by
  induction l generalizing i with
  | nil => rfl
  | cons a rest ih =>
      cases i with
      | zero => rfl
      | succ i => exact ih i

theorem RInv_addNode {tr : PTree} (p : Nat) (h : RInv tr) :
    RInv (addNodeP (some p) tr).2.2 ∧
      ((addNodeP (some p) tr).2.2).root = tr.root ∧
      ((addNodeP (some p) tr).2.2).nodes = tr.nodes ++ [[]] := by
  obtain ⟨h1, h2⟩ := h
  refine ⟨⟨?_, ?_⟩, rfl, rfl⟩
  · intro i
    rcases Nat.lt_trichotomy i tr.nodes.length with hi | hi | hi
    · rw [addNodeP]
      simp only
      rw [List.get?_append (by simpa using hi)]
      exact h1 i
    · subst hi
      simp [addNodeP, List.get?_concat_length, attrGet]
    · rw [addNodeP]
      simp only
      rw [List.get?_eq_none.mpr (by simp; omega)]
      simp [attrGet]
  · intro i hi
    simp only [addNodeP] at hi ⊢
    rcases Nat.lt_trichotomy i tr.nodes.length with hlt | heq | hgt
    · rw [List.get?_append (by simpa using hlt)]
      exact h2 i hi
    · subst heq
      simp [List.get?_concat_length, attrGet]
    · rw [List.get?_eq_none.mpr (by simp; omega)]
      simp [attrGet]

theorem RInv_setTitle {tr : PTree} (nid : Nat) (v : Val) (h : RInv tr) :
    RInv (setNodeAttr tr nid kTitle v) ∧ (setNodeAttr tr nid kTitle v).root = tr.root := by
  obtain ⟨h1, h2⟩ := h
  refine ⟨⟨?_, ?_⟩, rfl⟩
  · intro i
    by_cases hi : nid = i
    · subst hi
      rw [setNodeAttr]
      simp only
      rw [listModify_get?_eq]
      cases hg : tr.nodes.get? nid with
      | none => simp [hg, attrGet]
      | some a =>
          have := h1 nid
          rw [hg] at this
          simpa using attrGet_attrSet_ne a v (by decide) |>.trans this
    · rw [setNodeAttr]
      simp only
      rw [listModify_get?_ne _ _ hi]
      exact h1 i
  · intro i hi
    by_cases hne : nid = i
    · subst hne
      rw [setNodeAttr]
      simp only
      rw [listModify_get?_eq]
      cases hg : tr.nodes.get? nid with
      | none => simp [hg, attrGet]
      | some a =>
          have := h2 nid hi
          rw [hg] at this
          simpa using attrGet_attrSet_ne a v (by decide) |>.trans this
    · rw [setNodeAttr]
      simp only
      rw [listModify_get?_ne _ _ hne]
      exact h2 i hi

theorem RInv_setBranch {tr : PTree} (b : Nat) (k : List Char) (v : Val) (h : RInv tr) :
    RInv (setBranchAttr tr b k v) ∧ (setBranchAttr tr b k v).root = tr.root :=
  ⟨⟨h.1, h.2⟩, rfl⟩

theorem RInv_setRootDist {tr : PTree} {nid : Nat} (v : Val)
    (hroot : tr.root = some nid) (h : RInv tr) :
    RInv (setNodeAttr tr nid kDistance v) ∧ (setNodeAttr tr nid kDistance v).root = tr.root := by
  obtain ⟨h1, h2⟩ := h
  refine ⟨⟨?_, ?_⟩, rfl⟩
  · intro i
    by_cases hi : nid = i
    · subst hi
      rw [setNodeAttr]
      simp only
      rw [listModify_get?_eq]
      cases hg : tr.nodes.get? nid with
      | none => simp [hg, attrGet]
      | some a =>
          have := h1 nid
          rw [hg] at this
          simpa using attrGet_attrSet_ne a v (by decide) |>.trans this
    · rw [setNodeAttr]
      simp only
      rw [listModify_get?_ne _ _ hi]
      exact h1 i
  · intro i hi
    rw [setNodeAttr] at hi ⊢
    simp only at hi ⊢
    by_cases hne : nid = i
    · subst hne
      rw [hroot] at hi
      exact absurd rfl hi
    · rw [listModify_get?_ne _ _ hne]
      exact h2 i hi

theorem nodeTail_RInv {ann : Bool} {full : List Char} {par : Option Nat} {nid : Nat}
    {bidx : Option Nat} {tr : PTree} {pos : Nat} {r : Nat × PTree × Nat}
    (hann : ann = false)
    (h : nodeTail ann full par nid bidx tr pos = .ok r)
    (hinv : RInv tr)
    (hroot : par = none → tr.root = some nid) :
    RInv r.2.1 ∧ r.2.1.root = tr.root := by
  subst hann
  unfold nodeTail at h
  simp only [Bool.false_eq_true, if_false, eb_ok] at h
  cases h
  have hinv1 : RInv (titleUpd nid tr (parseNameF full pos).1) ∧
      (titleUpd nid tr (parseNameF full pos).1).root = tr.root := by
    unfold titleUpd
    cases (parseNameF full pos).1 with
    | some w => exact RInv_setTitle nid _ hinv
    | none => exact ⟨hinv, rfl⟩
  cases hdq : (parseDistF full ((parseNameF full pos).2)).1 with
  | none =>
      dsimp only
      exact hinv1
  | some d =>
      dsimp only
      cases par with
      | some q =>
          cases bidx with
          | some b =>
              obtain ⟨ha, hb⟩ := RInv_setBranch b kDistance (.num d) hinv1.1
              exact ⟨ha, hb.trans hinv1.2⟩
          | none => exact hinv1
      | none =>
          obtain ⟨ha, hb⟩ := RInv_setRootDist (.num d)
            (hinv1.2.trans (hroot rfl)) hinv1.1
          exact ⟨ha, hb.trans hinv1.2⟩

theorem childLoop_RInv {full : List Char}
    {pn : PTree → Nat → Except Err (Nat × PTree × Nat)}
    (hpn : ∀ tr p r, pn tr p = .ok r → RInv tr → RInv r.2.1 ∧ r.2.1.root = tr.root) :
    ∀ fuel tr pos r, childLoop full pn fuel tr pos = .ok r → RInv tr →
      RInv r.1 ∧ r.1.root = tr.root := by
  intro fuel
  induction fuel with
  | zero => intro tr pos r h; cases h
  | succ fuel ih =>
      intro tr pos r h hinv
      unfold childLoop at h
      dsimp only at h
      split at h
      · rcases hx : pn tr ((peekC full pos).2 + 1) with e | a
        · rw [hx] at h; cases h
        · rw [hx] at h
          rw [eb_ok] at h
          obtain ⟨ha, hr⟩ := hpn _ _ _ hx hinv
          obtain ⟨hb, hr2⟩ := ih _ _ _ h ha
          exact ⟨hb, hr2.trans hr⟩
      · cases h; exact ⟨hinv, rfl⟩

theorem parse_node_RInv {full : List Char} :
    ∀ fuel par tr pos r,
      parse_node false full fuel par tr pos = .ok r →
      RInv tr →
      (par.isSome ∨ ∀ i, attrGet ((tr.nodes.get? i).getD []) kDistance = none) →
      RInv r.2.1 ∧ (par.isSome → r.2.1.root = tr.root) := by
  intro fuel
  induction fuel with
  | zero => intro par tr pos r h; cases h
  | succ fuel ih =>
      intro par tr pos r h hinv hdist
      unfold parse_node at h
      dsimp only at h
      have hstep : RInv (addNodeP par tr).2.2 ∧
          (par = none → ((addNodeP par tr).2.2).root = some (addNodeP par tr).1) ∧
          (par.isSome → ((addNodeP par tr).2.2).root = tr.root) := by
        cases par with
        | some p =>
            obtain ⟨ha, hb, _⟩ := RInv_addNode p hinv
            refine ⟨ha, ?_, fun _ => hb⟩
            intro hc
            exact absurd hc (Option.some_ne_none p)
        | none =>
            refine ⟨⟨?_, ?_⟩, fun _ => rfl, by intro hc; cases hc⟩
            · intro i
              rcases Nat.lt_trichotomy i tr.nodes.length with hi | hi | hi
              · rw [addNodeP]
                simp only
                rw [List.get?_append (by simpa using hi)]
                exact hinv.1 i
              · subst hi
                simp [addNodeP, List.get?_concat_length, attrGet]
              · rw [addNodeP]
                simp only
                rw [List.get?_eq_none.mpr (by simp; omega)]
                simp [attrGet]
            · intro i _
              rcases hdist with hd | hd
              · cases hd
              · rcases Nat.lt_trichotomy i tr.nodes.length with hi | hi | hi
                · rw [addNodeP]
                  simp only
                  rw [List.get?_append (by simpa using hi)]
                  exact hd i
                · subst hi
                  simp [addNodeP, List.get?_concat_length, attrGet]
                · rw [addNodeP]
                  simp only
                  rw [List.get?_eq_none.mpr (by simp; omega)]
                  simp [attrGet]
      obtain ⟨hinv1, hrootN, hrootS⟩ := hstep
      split at h
      · -- compound-node branch
        rcases hx : parse_node false full fuel (some (addNodeP par tr).1)
            (addNodeP par tr).2.2 ((peekC full (skipSpaces full pos)).2 + 1) with e | a
        · rw [hx] at h; cases h
        · rw [hx, eb_ok] at h
          obtain ⟨hinv2, hroot2⟩ := ih _ _ _ _ hx hinv1 (Or.inl (by simp))
          rcases hy : childLoop full
              (fun t p => parse_node false full fuel (some (addNodeP par tr).1) t p)
              fuel a.2.1 (skipSpaces full a.2.2) with e | b
          · rw [hy] at h; cases h
          · rw [hy, eb_ok] at h
            have hcl := childLoop_RInv
              (fun t p rr hr hv =>
                ⟨(ih _ _ _ _ hr hv (Or.inl (by simp))).1,
                 (ih _ _ _ _ hr hv (Or.inl (by simp))).2 (by simp)⟩) _ _ _ _ hy hinv2
            obtain ⟨hinv3, hroot3⟩ := hcl
            split at h
            · have := nodeTail_RInv rfl h hinv3
                (fun hp => by
                  rw [hroot3, hroot2 (by simp), hrootN hp])
              exact ⟨this.1, fun hp =>
                (this.2.trans (hroot3.trans (hroot2 (by simp)))).trans (hrootS hp)⟩
            · cases h
      · have := nodeTail_RInv rfl h hinv1 hrootN
        exact ⟨this.1, fun hp => this.2.trans (hrootS hp)⟩

theorem RInv_empty : RInv emptyPTree := by
  constructor <;> intro i <;> simp [emptyPTree, attrGet]

/-- A tree returned by `read` with annotations off never carries a `support`
attribute on any node, and never a `distance` attribute on a non-root node. -/
theorem readL_RInv {s : List Char} {tr : PTree} (h : readL false s = .ok tr) :
    RInv tr := by
  unfold readL at h
  dsimp only at h
  split at h
  · cases h
  · rw [if_pos rfl] at h
    rcases hx : parse_node false (normalizeStr s) (2 * (normalizeStr s).length + 4)
        none emptyPTree 0 with e | a
    · rw [hx] at h; cases h
    · rw [hx, eb_ok] at h
      cases h
      exact (parse_node_RInv _ _ _ _ _ hx RInv_empty
        (Or.inr (by intro i; cases i <;> simp [emptyPTree, attrGet]))).1

/-! ### Behaviour of `_parseName` -/
theorem parseQuotedAt_none {s : List Char}
    (h : s = [] ∨ ∃ c rest, s = c :: rest ∧ isPySpace c = false ∧ c ≠ '\'') :
    parseQuotedAt s = none := by
  rcases h with h | ⟨c, rest, h, hs, hq⟩
  · subst h; rfl
  · subst h
    unfold parseQuotedAt
    rw [takeWhile_nil_of_head _ _ _ hs]
    simp only [List.length_nil, List.drop_zero]
    split
    next heq => rw [List.cons_eq_cons] at heq; exact absurd heq.1 hq
    next => rfl

theorem parseUnquotedAt_none {s : List Char}
    (h : s = [] ∨ ∃ c rest, s = c :: rest ∧ isPySpace c = false ∧ isNameChar c = false) :
    parseUnquotedAt s = none := by
  rcases h with h | ⟨c, rest, h, hs, hn⟩
  · subst h; rfl
  · subst h
    unfold parseUnquotedAt
    rw [takeWhile_nil_of_head _ _ _ hs]
    simp only [List.length_nil, List.drop_zero]
    rw [takeWhile_nil_of_head _ _ _ hn]
    rfl

/-- `_parseName` consumes nothing at a position whose character can start
neither name form. -/
theorem parseNameF_none {full : List Char} {pos : Nat}
    (h : full.drop pos = [] ∨ ∃ c rest, full.drop pos = c :: rest ∧
      isPySpace c = false ∧ c ≠ '\'' ∧ isNameChar c = false) :
    parseNameF full pos = (none, pos) := by
  have h1 : parseQuotedAt (full.drop pos) = none := by
    apply parseQuotedAt_none
    rcases h with h | ⟨c, r, ha, hb, hc, _⟩
    · exact Or.inl h
    · exact Or.inr ⟨c, r, ha, hb, hc⟩
  have h2 : parseUnquotedAt (full.drop pos) = none := by
    apply parseUnquotedAt_none
    rcases h with h | ⟨c, r, ha, hb, _, hd⟩
    · exact Or.inl h
    · exact Or.inr ⟨c, r, ha, hb, hd⟩
  unfold parseNameF
  rw [h1, h2]

/-- `_parseName` on an unquoted word: consumes exactly the word when the
following character extends neither the word nor the trailing `\s*`. -/
theorem parseNameF_word {full : List Char} {pos : Nat} {w rest : List Char}
    (hd : full.drop pos = w ++ rest)
    (hw : w ≠ []) (hall : ∀ c ∈ w, isNameChar c = true)
    (hrest : rest = [] ∨ ∃ c r, rest = c :: r ∧ isPySpace c = false ∧ isNameChar c = false) :
    parseNameF full pos = (some w, pos + w.length) := by
  obtain ⟨c0, w', hw0⟩ : ∃ c0 w', w = c0 :: w' := by
    cases w with
    | nil => exact absurd rfl hw
    | cons a b => exact ⟨a, b, rfl⟩
  have hc0 : isNameChar c0 = true := hall c0 (by rw [hw0]; simp)
  have hquoted : parseQuotedAt (full.drop pos) = none :=
    parseQuotedAt_none (Or.inr ⟨c0, w' ++ rest, by rw [hd, hw0, List.cons_append],
      nameChar_not_space hc0, nameChar_ne_quote hc0⟩)
  have htail : rest.takeWhile isNameChar = [] := by
    rcases hrest with h | ⟨c, r, h1, _, h3⟩
    · subst h; rfl
    · subst h1; exact takeWhile_nil_of_head _ _ _ h3
  have hws : rest.takeWhile isPySpace = [] := by
    rcases hrest with h | ⟨c, r, h1, h2, _⟩
    · subst h; rfl
    · subst h1; exact takeWhile_nil_of_head _ _ _ h2
  have hwsw : (w ++ rest).takeWhile isPySpace = [] := by
    rw [hw0, List.cons_append]
    exact takeWhile_nil_of_head _ _ _ (nameChar_not_space hc0)
  have hunq : parseUnquotedAt (full.drop pos) = some (w, w.length) := by
    unfold parseUnquotedAt
    rw [hd, hwsw]
    simp only [List.length_nil, List.drop_zero]
    rw [takeWhile_append_all _ _ _ hall, htail, List.append_nil]
    rw [if_neg hw, List.drop_left, hws]
    simp
  unfold parseNameF
  rw [hquoted, hunq]

/-! ### Behaviour of the annotation and distance matchers at stop characters -/
theorem annMatchAt_none {s : List Char}
    (h : s = [] ∨ ∃ c rest, s = c :: rest ∧ isPySpace c = false ∧ c ≠ '[') :
    annMatchAt s = none := by
  rcases h with h | ⟨c, rest, h, hs, hb⟩
  · subst h; rfl
  · subst h
    unfold annMatchAt
    rw [takeWhile_nil_of_head _ _ _ hs]
    simp only [List.length_nil, List.drop_zero]
    cases rest with
    | nil =>
        split
        next heq => rw [List.cons_eq_cons] at heq; exact absurd heq.1 hb
        next => rfl
    | cons d rest' =>
        split
        next heq => rw [List.cons_eq_cons] at heq; exact absurd heq.1 hb
        next => rfl

theorem parse_node_anns_skip {full : List Char} {nid : Nat} {tr : PTree} {pos : Nat}
    (h : full.drop pos = [] ∨ ∃ c rest, full.drop pos = c :: rest ∧
      isPySpace c = false ∧ c ≠ '[') :
    parse_node_anns full nid tr pos = .ok (tr, pos) := by
  unfold parse_node_anns
  rw [annMatchAt_none h]

theorem parseDistF_none {full : List Char} {pos : Nat}
    (h : full.drop pos = [] ∨ ∃ c rest, full.drop pos = c :: rest ∧
      isPySpace c = false ∧ c ≠ ':') :
    parseDistF full pos = (none, pos) := by
  unfold parseDistF
  dsimp only
  rcases h with h | ⟨c, rest, h, hs, hc⟩
  · rw [h]; rfl
  · rw [h, takeWhile_nil_of_head _ _ _ hs]
    simp only [List.length_nil, List.drop_zero]
    split
    next heq => rw [List.cons_eq_cons] at heq; exact absurd heq.1 hc
    next => rfl

/-! ### Decimal rendering and its re-parse -/
theorem digitChar_isDigit (d : Nat) : isDigitC (digitChar d) = true := by
  unfold digitChar
  split <;> decide

theorem digitVal_digitChar {d : Nat} (h : d < 10) : digitVal (digitChar d) = d := by
  interval_cases d <;> rfl

theorem digitsVal_from (xs : List Char) (a : Nat) :
    xs.foldl (fun b c => 10 * b + digitVal c) a = a * 10 ^ xs.length + digitsVal xs := by
  induction xs generalizing a with
  | nil => simp [digitsVal]
  | cons c rest ih =>
      simp only [List.foldl_cons, digitsVal, List.length_cons]
      rw [ih (10 * a + digitVal c), ih (10 * 0 + digitVal c)]
      ring

theorem digitsVal_append (xs ys : List Char) :
    digitsVal (xs ++ ys) = digitsVal xs * 10 ^ ys.length + digitsVal ys := by
  unfold digitsVal
  rw [List.foldl_append, digitsVal_from]
  rfl

theorem digitsVal_replicate_zero (j : Nat) (ds : List Char) :
    digitsVal (List.replicate j '0' ++ ds) = digitsVal ds := by
  rw [digitsVal_append]
  have hz : digitsVal (List.replicate j '0') = 0 := by
    induction j with
    | zero => rfl
    | succ j ih =>
        rw [List.replicate_succ]
        show (List.replicate j '0').foldl (fun b c => 10 * b + digitVal c)
          (10 * 0 + digitVal '0') = 0
        rw [digitsVal_from]
        have h0 : digitVal '0' = 0 := by decide
        rw [h0] at *
        simpa using ih
  rw [hz]
  ring

theorem natCharsAux_zero : ∀ fuel, natCharsAux fuel 0 = [] := by
  intro fuel
  cases fuel with
  | zero => rfl
  | succ fuel => simp [natCharsAux]

theorem natCharsAux_spec : ∀ fuel n, n ≤ fuel →
    (∀ c ∈ natCharsAux fuel n, isDigitC c = true) ∧
    digitsVal (natCharsAux fuel n) = n := by
  intro fuel
  induction fuel with
  | zero =>
      intro n hn
      have h0 : n = 0 := Nat.le_zero.mp hn
      subst h0
      constructor
      · intro c hc; exact absurd hc (List.not_mem_nil c)
      · rfl
  | succ fuel ih =>
      intro n hn
      unfold natCharsAux
      by_cases h0 : n = 0
      · subst h0
        simp only [if_pos rfl]
        constructor
        · intro c hc; exact absurd hc (List.not_mem_nil c)
        · rfl
      · rw [if_neg h0]
        have hd : n / 10 ≤ fuel := by
          have h10 : n / 10 < n := Nat.div_lt_self (Nat.pos_of_ne_zero h0) (by omega)
          omega
        obtain ⟨ha, hb⟩ := ih (n / 10) hd
        constructor
        · intro c hc
          rcases List.mem_append.mp hc with hc | hc
          · exact ha c hc
          · rw [List.mem_singleton.mp hc]
            exact digitChar_isDigit _
        · rw [digitsVal_append, hb]
          have hone : digitsVal [digitChar (n % 10)] = n % 10 := by
            show 10 * 0 + digitVal (digitChar (n % 10)) = n % 10
            rw [digitVal_digitChar (Nat.mod_lt n (by omega))]
            omega
          rw [hone]
          simp only [List.length_singleton, pow_one]
          omega

theorem natChars_digits (n : Nat) : ∀ c ∈ natChars n, isDigitC c = true := by
  unfold natChars
  split
  · intro c hc; rw [List.mem_singleton.mp hc]; decide
  · exact (natCharsAux_spec (n+1) n (by omega)).1

theorem natChars_val (n : Nat) : digitsVal (natChars n) = n := by
  unfold natChars
  split
  · next h => rw [h]; rfl
  · exact (natCharsAux_spec (n+1) n (by omega)).2

theorem natChars_ne_nil (n : Nat) : natChars n ≠ [] := by
  unfold natChars
  split
  · simp
  · next h =>
      intro hc
      have hv := (natCharsAux_spec (n+1) n (by omega)).2
      rw [hc] at hv
      exact h hv.symm

theorem natCharsAux_len : ∀ fuel n k, n ≤ fuel → n < 10 ^ k →
    (natCharsAux fuel n).length ≤ k := by
  intro fuel
  induction fuel with
  | zero =>
      intro n k hn _
      have : n = 0 := Nat.le_zero.mp hn
      subst this
      simp [natCharsAux]
  | succ fuel ih =>
      intro n k hn hk
      unfold natCharsAux
      by_cases h0 : n = 0
      · simp [h0]
      · rw [if_neg h0]
        rw [List.length_append, List.length_singleton]
        cases k with
        | zero =>
            exfalso
            simp at hk
            omega
        | succ k =>
            have hd : n / 10 ≤ fuel := by
              have h10 : n / 10 < n := Nat.div_lt_self (Nat.pos_of_ne_zero h0) (by omega)
              omega
            have hdk : n / 10 < 10 ^ k := by
              rw [pow_succ] at hk
              exact Nat.div_lt_of_lt_mul (by omega)
            have := ih (n / 10) k hd hdk
            omega

theorem natChars_len {n k : Nat} (hk : 1 ≤ k) (h : n < 10 ^ k) :
    (natChars n).length ≤ k := by
  unfold natChars
  split
  · simpa using hk
  · exact natCharsAux_len (n+1) n k (by omega) h

theorem natChars_head_ne_zero {n : Nat} (hn : 1 ≤ n) :
    ∃ d rest, natChars n = d :: rest ∧ d ≠ '0' ∧ isDigitC d = true := by
  unfold natChars
  rw [if_neg (by omega)]
  have haux : ∀ fuel m, 1 ≤ m → m ≤ fuel →
      ∃ d rest, natCharsAux fuel m = d :: rest ∧ d ≠ '0' ∧ isDigitC d = true := by
    intro fuel
    induction fuel with
    | zero => intro m h1 h2; omega
    | succ fuel ih =>
        intro m h1 h2
        unfold natCharsAux
        rw [if_neg (by omega)]
        by_cases hm : m < 10
        · have hq : m / 10 = 0 := Nat.div_eq_of_lt hm
          rw [hq, natCharsAux_zero]
          refine ⟨digitChar (m % 10), [], by simp, ?_, digitChar_isDigit _⟩
          have hmm : m % 10 = m := Nat.mod_eq_of_lt hm
          rw [hmm]
          intro hc
          have hdv := digitVal_digitChar hm
          rw [hc] at hdv
          have : digitVal '0' = 0 := by decide
          omega
        · have hq1 : 1 ≤ m / 10 := Nat.one_le_div_iff (by omega) |>.mpr (by omega)
          have hq2 : m / 10 ≤ fuel := by
            have : m / 10 < m := Nat.div_lt_self (by omega) (by omega)
            omega
          obtain ⟨d, rest, hd, hne, hdig⟩ := ih (m / 10) hq1 hq2
          exact ⟨d, rest ++ [digitChar (m % 10)], by rw [hd]; simp, hne, hdig⟩
  exact haux (n+1) n hn (by omega)

theorem digit_ne_dash {c : Char} (h : isDigitC c = true) : c ≠ '-' := by
  intro he; subst he; cases h

theorem digit_ne_dot {c : Char} (h : isDigitC c = true) : c ≠ '.' := by
  intro he; subst he; cases h

theorem digit_not_space {c : Char} (h : isDigitC c = true) : isPySpace c = false := by
  cases hs : isPySpace c with
  | false => rfl
  | true =>
      exfalso
      simp only [isPySpace, Bool.or_eq_true, decide_eq_true_eq] at hs
      rcases hs with ((((hs | hs) | hs) | hs) | hs) | hs <;> subst hs <;> cases h

theorem stop_not_digit {c : Char} (h : c = ',' ∨ c = ')') : isDigitC c = false := by
  rcases h with h | h <;> subst h <;> rfl

theorem stop_not_space {c : Char} (h : c = ',' ∨ c = ')') : isPySpace c = false := by
  rcases h with h | h <;> subst h <;> rfl

theorem takeWhile_digits {ds rest : List Char} (hall : ∀ c ∈ ds, isDigitC c = true)
    (hrest : rest = [] ∨ ∃ c r, rest = c :: r ∧ isDigitC c = false) :
    (ds ++ rest).takeWhile isDigitC = ds := by
  rw [takeWhile_append_all _ _ _ hall]
  rcases hrest with h | ⟨c, r, h1, h2⟩
  · subst h; simp
  · subst h1; rw [takeWhile_nil_of_head _ _ _ h2, List.append_nil]

/-- The `%.3f` fraction block: three digits. -/
theorem fr3_facts (a : Nat) :
    (∀ c ∈ List.replicate (3 - (natChars (a % 10 ^ 3)).length) '0' ++ natChars (a % 10 ^ 3),
      isDigitC c = true) ∧
    (List.replicate (3 - (natChars (a % 10 ^ 3)).length) '0' ++ natChars (a % 10 ^ 3)).length = 3 ∧
    digitsVal (List.replicate (3 - (natChars (a % 10 ^ 3)).length) '0' ++ natChars (a % 10 ^ 3))
      = a % 10 ^ 3 := by
  have hlt : a % 10 ^ 3 < 10 ^ 3 := Nat.mod_lt a (by norm_num)
  have hlen : (natChars (a % 10 ^ 3)).length ≤ 3 := natChars_len (by norm_num) hlt
  refine ⟨?_, ?_, ?_⟩
  · intro c hc
    rcases List.mem_append.mp hc with hc | hc
    · rw [List.eq_of_mem_replicate hc]; rfl
    · exact natChars_digits _ c hc
  · rw [List.length_append, List.length_replicate]
    omega
  · rw [digitsVal_replicate_zero, natChars_val]

theorem stopRest_not_digit {rest : List Char} (h : stopRest rest) :
    rest = [] ∨ ∃ c r, rest = c :: r ∧ isDigitC c = false := by
  rcases h with h | ⟨c, r, h1, h2⟩
  · exact Or.inl h
  · exact Or.inr ⟨c, r, h1, stop_not_digit h2⟩

/-- The exponent continuation of the first `_distRegex` alternative fails on
a stop suffix. -/
theorem distAlt1_frac_noexp {d0 : Char} {ds rest : List Char}
    (hd0 : isDigitC d0 = true) (hds : ∀ c ∈ ds, isDigitC c = true) (hne : ds ≠ [])
    (hrest : stopRest rest) :
    distAlt1 (d0 :: '.' :: (ds ++ rest)) = none := by
  unfold distAlt1
  have hh : (decide ((d0 :: '.' :: (ds ++ rest)).head? = some '-')) = false := by
    simp [digit_ne_dash hd0]
  simp only [hh, if_false, Bool.false_eq_true]
  rw [if_pos hd0]
  rw [takeWhile_digits hds (stopRest_not_digit hrest), if_neg hne, List.drop_left]
  rcases hrest with h | ⟨c, r, h1, h2⟩
  · subst h; rfl
  · subst h1
    cases r with
    | nil =>
        split
        next heq =>
            rw [List.cons_eq_cons] at heq
            exact absurd heq.2 (by simp)
        next => rfl
    | cons c2 r2 =>
        by_cases hc2 : c2 = '-'
        · subst hc2
          have hce : (c = 'e' || c = 'E') = false := by
            rcases h2 with h2 | h2 <;> subst h2 <;> rfl
          split
          next heq =>
              rw [List.cons_eq_cons] at heq
              obtain ⟨he, _⟩ := heq
              subst he
              rw [hce]
              rfl
          next => rfl
        · split
          next heq =>
              rw [List.cons_eq_cons] at heq
              obtain ⟨_, ht⟩ := heq
              rw [List.cons_eq_cons] at ht
              exact absurd ht.1 hc2
          next => rfl

theorem distAlt1_neg_frac_noexp {d0 : Char} {ds rest : List Char}
    (hd0 : isDigitC d0 = true) (hds : ∀ c ∈ ds, isDigitC c = true) (hne : ds ≠ [])
    (hrest : stopRest rest) :
    distAlt1 ('-' :: d0 :: '.' :: (ds ++ rest)) = none := by
  unfold distAlt1
  have hh : (decide (('-' :: d0 :: '.' :: (ds ++ rest)).head? = some '-')) = true := by simp
  simp only [hh, if_true, List.tail_cons]
  rw [if_pos hd0]
  rw [takeWhile_digits hds (stopRest_not_digit hrest), if_neg hne, List.drop_left]
  rcases hrest with h | ⟨c, r, h1, h2⟩
  · subst h; rfl
  · subst h1
    cases r with
    | nil =>
        split
        next heq =>
            rw [List.cons_eq_cons] at heq
            exact absurd heq.2 (by simp)
        next => rfl
    | cons c2 r2 =>
        by_cases hc2 : c2 = '-'
        · subst hc2
          have hce : (c = 'e' || c = 'E') = false := by
            rcases h2 with h2 | h2 <;> subst h2 <;> rfl
          split
          next heq =>
              rw [List.cons_eq_cons] at heq
              obtain ⟨he, _⟩ := heq
              subst he
              rw [hce]
              rfl
          next => rfl
        · split
          next heq =>
              rw [List.cons_eq_cons] at heq
              obtain ⟨_, ht⟩ := heq
              rw [List.cons_eq_cons] at ht
              exact absurd ht.1 hc2
          next => rfl

theorem distAlt1_twodigits {d0 d1 : Char} {t : List Char}
    (hd0 : isDigitC d0 = true) (hd1 : isDigitC d1 = true) :
    distAlt1 (d0 :: d1 :: t) = none := by
  unfold distAlt1
  have hh : (decide ((d0 :: d1 :: t).head? = some '-')) = false := by
    simp [digit_ne_dash hd0]
  simp only [hh, if_false, Bool.false_eq_true]
  split
  next heq =>
      rw [List.cons_eq_cons] at heq
      obtain ⟨_, ht⟩ := heq
      rw [List.cons_eq_cons] at ht
      exact absurd ht.1 (digit_ne_dot hd1)
  next => rfl

theorem distAlt2_zero_frac {ds rest : List Char}
    (hds : ∀ c ∈ ds, isDigitC c = true) (hne : ds ≠ []) (hrest : stopRest rest) :
    distAlt2 ('0' :: '.' :: (ds ++ rest)) =
      some (⟨(digitsVal ds : Int), ds.length⟩, 2 + ds.length) := by
  unfold distAlt2
  have hh : (decide (('0' :: '.' :: (ds ++ rest)).head? = some '-')) = false := by simp
  simp only [hh, if_false, Bool.false_eq_true]
  rw [takeWhile_digits hds (stopRest_not_digit hrest), if_neg hne]

theorem distAlt2_neg_zero_frac {ds rest : List Char}
    (hds : ∀ c ∈ ds, isDigitC c = true) (hne : ds ≠ []) (hrest : stopRest rest) :
    distAlt2 ('-' :: '0' :: '.' :: (ds ++ rest)) =
      some (⟨-(digitsVal ds : Int), ds.length⟩, 1 + 2 + ds.length) := by
  unfold distAlt2
  have hh : (decide (('-' :: '0' :: '.' :: (ds ++ rest)).head? = some '-')) = true := by simp
  simp only [hh, if_true, List.tail_cons]
  rw [takeWhile_digits hds (stopRest_not_digit hrest), if_neg hne]

theorem distAlt2_none_of_head {d0 : Char} {t : List Char}
    (h0 : d0 ≠ '0') (hdot : d0 ≠ '.') (hdash : d0 ≠ '-') :
    distAlt2 (d0 :: t) = none := by
  unfold distAlt2
  have hh : (decide ((d0 :: t).head? = some '-')) = false := by simp [hdash]
  simp only [hh, if_false, Bool.false_eq_true]
  split
  next heq => rw [List.cons_eq_cons] at heq; exact absurd heq.1 h0
  next heq => rw [List.cons_eq_cons] at heq; exact absurd heq.1 hdot
  next => rfl

theorem distAlt3_intfrac {ds1 ds2 rest : List Char}
    (h1 : ∀ c ∈ ds1, isDigitC c = true) (hne1 : ds1 ≠ [])
    (h2 : ∀ c ∈ ds2, isDigitC c = true) (hne2 : ds2 ≠ []) (hrest : stopRest rest) :
    distAlt3 (ds1 ++ '.' :: (ds2 ++ rest)) =
      some (⟨(digitsVal ds1 * 10 ^ ds2.length + digitsVal ds2 : Nat), ds2.length⟩,
        ds1.length + 1 + ds2.length) := by
  unfold distAlt3
  have hip : (ds1 ++ '.' :: (ds2 ++ rest)).takeWhile isDigitC = ds1 := by
    rw [takeWhile_append_all _ _ _ h1, takeWhile_nil_of_head _ _ _ (by rfl), List.append_nil]
  rw [hip, if_neg hne1, List.drop_left]
  split
  next heq =>
      rw [List.cons_eq_cons] at heq
      obtain ⟨_, hs2⟩ := heq
      subst hs2
      rw [takeWhile_digits h2 (stopRest_not_digit hrest), if_neg hne2]
  next hno => exact absurd rfl (hno (ds2 ++ rest))

/-- The `%.3f` rendering of a distance re-parses (through the full
`_distRegex` alternation) to exactly the rounded value, provided the rounded
value exceeds `-1` (the regex's only signed alternatives have a zero integer
part or a scientific exponent). -/
theorem parseNumber_fmtFixed3 {d : Dc} {rest : List Char}
    (hn : -1000 < rndAt 3 d) (hrest : stopRest rest) :
    parseNumber (fmtFixed 3 d ++ rest) = some (⟨rndAt 3 d, 3⟩, (fmtFixed 3 d).length) := by
  obtain ⟨hfrD, hfrL, hfrV⟩ := fr3_facts (rndAt 3 d).natAbs
  set n := rndAt 3 d with hndef
  set a := n.natAbs with hadef
  set frP := List.replicate (3 - (natChars (a % 10 ^ 3)).length) '0' ++ natChars (a % 10 ^ 3)
    with hfrdef
  have hfrne : frP ≠ [] := by
    intro hc
    rw [hc] at hfrL
    cases hfrL
  have hfmt : fmtFixed 3 d = (if n < 0 then ['-'] else []) ++ natChars (a / 10 ^ 3) ++
      '.' :: frP := rfl
  have hlen : (fmtFixed 3 d).length =
      (if n < 0 then 1 else 0) + (natChars (a / 10 ^ 3)).length + 1 + 3 := by
    rw [hfmt]
    simp only [List.length_append, List.length_cons, hfrL]
    split <;> simp
  rcases lt_trichotomy n 0 with hneg | hzero | hpos
  · -- negative: between -999 and -1, printed as -0.xyz
    have ha : a < 10 ^ 3 := by simp only [hadef]; omega
    have hdiv : a / 10 ^ 3 = 0 := Nat.div_eq_of_lt ha
    have hfmt2 : fmtFixed 3 d ++ rest = '-' :: '0' :: '.' :: (frP ++ rest) := by
      rw [hfmt, if_pos hneg, hdiv]
      simp [natChars]
    rw [hfmt2]
    unfold parseNumber
    rw [distAlt1_neg_frac_noexp (by decide) hfrD hfrne hrest]
    rw [distAlt2_neg_zero_frac hfrD hfrne hrest]
    have hval : a % 10 ^ 3 = a := Nat.mod_eq_of_lt ha
    have hm : -(digitsVal frP : Int) = n := by
      rw [hfrV, hval]
      simp only [hadef]
      omega
    rw [hlen, hdiv, if_pos hneg]
    simp only [hm, hfrL]
    norm_num [natChars]
  · -- zero: printed as 0.000
    have ha : a = 0 := by simp only [hadef]; omega
    have hdiv : a / 10 ^ 3 = 0 := by rw [ha]; exact Nat.zero_div _
    have hfmt2 : fmtFixed 3 d ++ rest = '0' :: '.' :: (frP ++ rest) := by
      rw [hfmt, if_neg (by omega), hdiv]
      simp [natChars]
    rw [hfmt2]
    unfold parseNumber
    rw [distAlt1_frac_noexp (by decide) hfrD hfrne hrest]
    rw [distAlt2_zero_frac hfrD hfrne hrest]
    have hm : (digitsVal frP : Int) = n := by
      rw [hfrV, ha]
      omega
    rw [hlen, hdiv, if_neg (by omega)]
    simp only [hm, hfrL]
    norm_num [natChars]
  · -- positive
    rcases lt_or_le n 1000 with hsmall | hbig
    · have ha : a < 10 ^ 3 := by simp only [hadef]; omega
      have hdiv : a / 10 ^ 3 = 0 := Nat.div_eq_of_lt ha
      have hfmt2 : fmtFixed 3 d ++ rest = '0' :: '.' :: (frP ++ rest) := by
        rw [hfmt, if_neg (by omega), hdiv]
        simp [natChars]
      rw [hfmt2]
      unfold parseNumber
      rw [distAlt1_frac_noexp (by decide) hfrD hfrne hrest]
      rw [distAlt2_zero_frac hfrD hfrne hrest]
      have hval : a % 10 ^ 3 = a := Nat.mod_eq_of_lt ha
      have hm : (digitsVal frP : Int) = n := by
        rw [hfrV, hval]
        simp only [hadef]
        omega
      rw [hlen, hdiv, if_neg (by omega)]
      simp only [hm, hfrL]
      norm_num [natChars]
    · -- big: integer part at least 1
      have hq : 1 ≤ a / 10 ^ 3 := by
        have : 1000 ≤ a := by simp only [hadef]; omega
        omega
      obtain ⟨dm, ipr, hip, hdm0, hdmD⟩ := natChars_head_ne_zero hq
      have hipD : ∀ c ∈ natChars (a / 10 ^ 3), isDigitC c = true := natChars_digits _
      have hfmt2 : fmtFixed 3 d ++ rest =
          natChars (a / 10 ^ 3) ++ '.' :: (frP ++ rest) := by
        rw [hfmt, if_neg (by omega)]
        simp [List.append_assoc]
      have hipne : natChars (a / 10 ^ 3) ≠ [] := natChars_ne_nil _
      rw [hfmt2]
      unfold parseNumber
      have h1 : distAlt1 (natChars (a / 10 ^ 3) ++ '.' :: (frP ++ rest)) = none := by
        rw [hip]
        cases ipr with
        | nil =>
            simp only [List.cons_append, List.nil_append]
            exact distAlt1_frac_noexp hdmD hfrD hfrne hrest
        | cons d1 ipr' =>
            simp only [List.cons_append]
            refine distAlt1_twodigits hdmD ?_
            exact hipD d1 (by rw [hip]; simp)
      have h2 : distAlt2 (natChars (a / 10 ^ 3) ++ '.' :: (frP ++ rest)) = none := by
        rw [hip]
        simp only [List.cons_append]
        exact distAlt2_none_of_head hdm0 (digit_ne_dot hdmD) (digit_ne_dash hdmD)
      rw [h1, h2]
      rw [distAlt3_intfrac hipD hipne hfrD hfrne hrest]
      have hval : digitsVal (natChars (a / 10 ^ 3)) * 10 ^ frP.length + digitsVal frP = a := by
        rw [natChars_val, hfrV, hfrL]
        have h10 : (10 : Nat) ^ 3 = 1000 := by norm_num
        rw [h10]
        omega
      have hm : ((digitsVal (natChars (a / 10 ^ 3)) * 10 ^ frP.length + digitsVal frP : Nat) : Int)
          = n := by
        rw [hval]
        simp only [hadef]
        omega
      rw [hlen, if_neg (by omega)]
      simp only [hfrL] at hm ⊢
      rw [hm]
      norm_num

theorem fmtFixed3_head (d : Dc) :
    ∃ c t, fmtFixed 3 d = c :: t ∧ isPySpace c = false ∧ c ≠ ':' := by
  unfold fmtFixed
  dsimp only
  split
  · exact ⟨'-', _, rfl, rfl, by decide⟩
  · obtain ⟨c, t, hct⟩ : ∃ c t, natChars ((rndAt 3 d).natAbs / 10 ^ 3) = c :: t := by
      cases hh : natChars ((rndAt 3 d).natAbs / 10 ^ 3) with
      | nil => exact absurd hh (natChars_ne_nil _)
      | cons c t => exact ⟨c, t, rfl⟩
    have hcD : isDigitC c = true := natChars_digits _ c (by rw [hct]; simp)
    refine ⟨c, t ++ '.' :: (List.replicate
        (3 - (natChars ((rndAt 3 d).natAbs % 1000)).length) '0' ++
        natChars ((rndAt 3 d).natAbs % 1000)), ?_, digit_not_space hcD, ?_⟩
    · rw [List.nil_append]
      norm_num
      rw [show ((rndAt 3 d).natAbs / 1000) = ((rndAt 3 d).natAbs / 10 ^ 3) by norm_num, hct]
      simp
    · intro he; subst he; cases hcD

theorem parseDistF_fmt {full : List Char} {pos : Nat} {d : Dc} {rest : List Char}
    (hd : full.drop pos = ':' :: (fmtFixed 3 d ++ rest))
    (hn : -1000 < rndAt 3 d) (hrest : stopRest rest) :
    parseDistF full pos = (some ⟨rndAt 3 d, 3⟩, pos + 1 + (fmtFixed 3 d).length) := by
  unfold parseDistF
  dsimp only
  rw [hd]
  rw [takeWhile_nil_of_head _ _ _ (by rfl : isPySpace ':' = false)]
  simp only [List.length_nil, List.drop_zero]
  obtain ⟨c0, t0, hfh, hfs, _⟩ := fmtFixed3_head d
  have hws2 : (fmtFixed 3 d ++ rest).takeWhile isPySpace = [] := by
    rw [hfh, List.cons_append]
    exact takeWhile_nil_of_head _ _ _ hfs
  rw [hws2]
  simp only [List.length_nil, List.drop_zero]
  rw [parseNumber_fmtFixed3 hn hrest]
  dsimp only
  have hdrop : (fmtFixed 3 d ++ rest).drop (fmtFixed 3 d).length = rest := List.drop_left _ _
  rw [hdrop]
  have hws3 : rest.takeWhile isPySpace = [] := by
    rcases hrest with h | ⟨c, r, h1, h2⟩
    · subst h; rfl
    · subst h1; exact takeWhile_nil_of_head _ _ _ (stop_not_space h2)
  rw [hws3]
  simp only [List.length_nil]
  constructor

/-! ### The written text of a node re-parses to the same node -/
theorem drop_append_len {full : List Char} {pos : Nat} {xs ys : List Char}
    (h : full.drop pos = xs ++ ys) : full.drop (pos + xs.length) = ys := by
  rw [drop_add, h, List.drop_left]

theorem emitDist_stop {d : Option Dc} {rest : List Char} (hrest : stopRest rest) :
    emitDist d ++ rest = [] ∨ ∃ c r, emitDist d ++ rest = c :: r ∧
      isPySpace c = false ∧ c ≠ '\'' ∧ isNameChar c = false ∧ c ≠ '[' := by
  cases d with
  | some q => exact Or.inr ⟨':', _, rfl, rfl, by decide, rfl, by decide⟩
  | none =>
      rcases hrest with h | ⟨c, r, h1, h2⟩
      · subst h; exact Or.inl rfl
      · subst h1
        refine Or.inr ⟨c, r, rfl, stop_not_space h2, ?_, ?_, ?_⟩ <;>
          rcases h2 with h2 | h2 <;> subst h2 <;> decide

theorem nodeTail_emit {ann : Bool} {full : List Char} {par : Option Nat} {nid : Nat}
    {bidx : Option Nat} {tr : PTree} {pos : Nat} {ti : Option (List Char)}
    {d : Option Dc} {rest : List Char}
    (hd : full.drop pos = (match ti with | some w => w | none => []) ++ emitDist d ++ rest)
    (hti : ∀ w, ti = some w → w ≠ [] ∧ ∀ c ∈ w, isNameChar c = true)
    (hdok : distOK d = true) (hrest : stopRest rest) :
    nodeTail ann full par nid bidx tr pos
      = .ok (nid, distUpd par nid bidx (titleUpd nid tr ti) (d.map (fun q => ⟨rndAt 3 q, 3⟩)),
          pos + (match ti with | some w => w | none => []).length + (emitDist d).length) := by
  have hstop := @emitDist_stop d rest hrest
  have hname : parseNameF full pos =
      (ti, pos + (match ti with | some w => w | none => []).length) := by
    cases ti with
    | some w =>
        obtain ⟨hw, hall⟩ := hti w rfl
        exact parseNameF_word (by rw [hd, List.append_assoc]) hw hall
          (by rcases hstop with h | ⟨c, r, h1, h2, _, h4, _⟩
              · exact Or.inl h
              · exact Or.inr ⟨c, r, h1, h2, h4⟩)
    | none =>
        simp only [List.nil_append] at hd
        have := @parseNameF_none full pos
          (by rcases hstop with h | ⟨c, r, h1, h2, h3, h4, _⟩
              · exact Or.inl (by rw [hd]; exact h)
              · exact Or.inr ⟨c, r, by rw [hd]; exact h1, h2, h3, h4⟩)
        simpa using this
  have hdrop2 : full.drop (pos + (match ti with | some w => w | none => []).length)
      = emitDist d ++ rest := drop_append_len (by rw [hd, List.append_assoc])
  have hanns : ∀ t : PTree, parse_node_anns full nid t
      (pos + (match ti with | some w => w | none => []).length) = .ok (t,
        pos + (match ti with | some w => w | none => []).length) := by
    intro t
    apply parse_node_anns_skip
    rcases hstop with h | ⟨c, r, h1, h2, _, _, h5⟩
    · exact Or.inl (by rw [hdrop2]; exact h)
    · exact Or.inr ⟨c, r, by rw [hdrop2]; exact h1, h2, h5⟩
  have hdist : parseDistF full (pos + (match ti with | some w => w | none => []).length)
      = (d.map (fun q => ⟨rndAt 3 q, 3⟩),
        pos + (match ti with | some w => w | none => []).length + (emitDist d).length) := by
    cases d with
    | some q =>
        have hq : -1000 < rndAt 3 q := by
          have h2 := hdok
          unfold distOK at h2
          exact of_decide_eq_true h2
        have := @parseDistF_fmt full
          (pos + (match ti with | some w => w | none => []).length) q rest
          (by rw [hdrop2]; rfl) hq hrest
        rw [this]
        simp [emitDist]
        omega
    | none =>
        have := @parseDistF_none full
          (pos + (match ti with | some w => w | none => []).length)
          (by rcases hrest with h | ⟨c, r, h1, h2⟩
              · exact Or.inl (by rw [hdrop2]; simpa [emitDist] using h)
              · refine Or.inr ⟨c, r, by rw [hdrop2]; simpa [emitDist] using h1,
                  stop_not_space h2, ?_⟩
                rcases h2 with h2 | h2 <;> subst h2 <;> decide)
        rw [this]
        simp [emitDist]
  unfold nodeTail
  rw [hname]
  dsimp only
  have hifann : (if ann then parse_node_anns full nid (titleUpd nid tr ti)
      (pos + (match ti with | some w => w | none => []).length)
    else .ok (titleUpd nid tr ti, pos + (match ti with | some w => w | none => []).length))
      = .ok (titleUpd nid tr ti, pos + (match ti with | some w => w | none => []).length) := by
    cases ann
    · rfl
    · simpa using hanns (titleUpd nid tr ti)
  rw [hifann, eb_ok]
  dsimp only
  rw [hdist]

theorem sizeT_pos (t : NT) : 1 ≤ sizeT t := by
  cases t with
  | node ti d ch => unfold sizeT; omega

theorem writableT_tip {ti : Option (List Char)} {d : Option Dc}
    (h : writableT (.node ti d .nil) = true) :
    (∃ w, ti = some w ∧ w ≠ [] ∧ ∀ c ∈ w, isNameChar c = true) ∧ distOK d = true := by
  unfold writableT at h
  simp only [Bool.and_eq_true] at h
  obtain ⟨⟨h1, h2⟩, _⟩ := h
  cases ti with
  | none => cases h1
  | some w =>
      simp only [Bool.and_eq_true] at h1
      refine ⟨⟨w, rfl, ?_, ?_⟩, h2⟩
      · simpa using h1.1
      · simpa [List.all_eq_true] using h1.2

theorem writableT_internal {ti : Option (List Char)} {d : Option Dc} {c1 : NT} {cs : NTL}
    (h : writableT (.node ti d (.cons c1 cs)) = true) :
    ti = none ∧ distOK d = true ∧ writableT c1 = true ∧ writableL cs = true := by
  unfold writableT at h
  simp only [Bool.and_eq_true] at h
  obtain ⟨⟨h1, h2⟩, h3⟩ := h
  have h4 : writableT c1 = true ∧ writableL cs = true := by
    unfold writableL at h3
    simpa [Bool.and_eq_true] using h3
  exact ⟨Option.isNone_iff_eq_none.mp h1, h2, h4.1, h4.2⟩

theorem drop_cons {full : List Char} {pos : Nat} {c : Char} {X : List Char}
    (h : full.drop pos = c :: X) : full.drop (pos + 1) = X := by
  have h2 := @drop_append_len full pos [c] X (by simpa using h)
  simpa using h2

theorem emitSeg_stop (cs : NTL) (rest2 : List Char) :
    stopRest (emitSeg cs ++ ')' :: rest2) := by
  cases cs with
  | nil => exact Or.inr ⟨')', rest2, rfl, Or.inr rfl⟩
  | cons c cs' => exact Or.inr ⟨',', _, rfl, Or.inl rfl⟩

theorem emitSeg_head (cs : NTL) (rest2 : List Char) :
    ∃ c X, emitSeg cs ++ ')' :: rest2 = c :: X ∧ c ≠ ' ' := by
  cases cs with
  | nil => exact ⟨')', rest2, rfl, by decide⟩
  | cons c cs' => exact ⟨',', _, rfl, by decide⟩

mutual
theorem parseP : ∀ (t : NT) (ann : Bool) (full : List Char) (par : Option Nat)
    (fuel : Nat) (tr : PTree) (pos k : Nat) (rest : List Char),
    writableT t = true →
    full.drop pos = List.replicate k ' ' ++ emitT t ++ rest →
    stopRest rest →
    sizeT t ≤ fuel →
    parse_node ann full fuel par tr pos
      = .ok (tr.nodes.length, flattenT par tr (mapRoundT t), pos + k + (emitT t).length)
  | .node ti d ch, ann, full, par, fuel, tr, pos, k, rest, hw, hd, hrest, hfuel => by
    obtain ⟨f, rfl⟩ : ∃ f, fuel = f + 1 := by
      have := sizeT_pos (.node ti d ch)
      cases fuel with
      | zero => omega
      | succ f => exact ⟨f, rfl⟩
    unfold parse_node
    dsimp only
    cases ch with
    | nil =>
        obtain ⟨⟨w, rfl, hwne, hwall⟩, hdok⟩ := writableT_tip hw
        obtain ⟨c0, w', rfl⟩ : ∃ c0 w', w = c0 :: w' := by
          cases w with
          | nil => exact absurd rfl hwne
          | cons a b => exact ⟨a, b, rfl⟩
        have hc0 : isNameChar c0 = true := hwall c0 (by simp)
        have hemit : emitT (.node (some (c0 :: w')) d .nil) = (c0 :: w') ++ emitDist d := rfl
        rw [hemit] at hd ⊢
        have hd2 : full.drop pos = List.replicate k ' ' ++ c0 :: (w' ++ emitDist d ++ rest) := by
          rw [hd]
          simp [List.append_assoc]
        have hskip : skipSpaces full pos = pos + k :=
          skipSpaces_spec hd2 (by
            intro he
            rw [he] at hc0
            cases hc0)
        rw [hskip]
        have hdropk : full.drop (pos + k) = c0 :: (w' ++ emitDist d ++ rest) := by
          have h2 := @drop_append_len full pos (List.replicate k ' ')
            (c0 :: (w' ++ emitDist d ++ rest)) (by rw [hd2])
          rwa [List.length_replicate] at h2
        rw [peekC_cons hdropk]
        dsimp only
        have hne : ¬ (some c0 = some '(') := by
          intro he
          rw [Option.some_inj] at he
          rw [he] at hc0
          cases hc0
        rw [if_neg hne]
        have htail := @nodeTail_emit ann full par
          (addNodeP par tr).1 (addNodeP par tr).2.1
          (addNodeP par tr).2.2 (pos + k) (some (c0 :: w')) d rest
          (by
            show full.drop (pos + k) = (c0 :: w') ++ emitDist d ++ rest
            rw [hdropk]
            simp [List.append_assoc])
          (by intro w hw2; cases hw2; exact ⟨hwne, hwall⟩)
          hdok hrest
        rw [htail]
        unfold flattenT mapRoundT mapRoundL flattenL
        dsimp only
        have hnid : (addNodeP par tr).1 = tr.nodes.length := by
          cases par <;> rfl
        rw [hnid]
        simp only [List.length_append]
        norm_num [Nat.add_assoc]
    | cons c1 cs =>
        obtain ⟨hti, hdok, hwc1, hwcs⟩ := writableT_internal hw
        subst hti
        have hemit : emitT (.node none d (.cons c1 cs)) =
            '(' :: (emitL (.cons c1 cs) ++ [')']) ++ emitDist d := rfl
        have hemitL : emitL (.cons c1 cs) = emitT c1 ++ emitSeg cs := rfl
        have hd2 : full.drop pos = List.replicate k ' ' ++
            '(' :: (emitT c1 ++ (emitSeg cs ++ ')' :: (emitDist d ++ rest))) := by
          rw [hd, hemit, hemitL]
          simp [List.append_assoc]
        have hskip : skipSpaces full pos = pos + k :=
          skipSpaces_spec hd2 (by decide)
        rw [hskip]
        have hdropk : full.drop (pos + k) =
            '(' :: (emitT c1 ++ (emitSeg cs ++ ')' :: (emitDist d ++ rest))) := by
          have h2 := @drop_append_len full pos (List.replicate k ' ')
            ('(' :: (emitT c1 ++ (emitSeg cs ++ ')' :: (emitDist d ++ rest)))) (by rw [hd2])
          rwa [List.length_replicate] at h2
        rw [peekC_cons hdropk]
        dsimp only
        rw [if_pos rfl]
        have hd3 : full.drop (pos + k + 1) = List.replicate 0 ' ' ++ emitT c1 ++
            (emitSeg cs ++ ')' :: (emitDist d ++ rest)) := by
          rw [drop_cons hdropk]
          simp
        have hszt : sizeT (.node none d (.cons c1 cs)) =
            1 + (sizeT c1 + sizeL cs) := rfl
        have hstc1 := sizeT_pos c1
        have hp := parseP c1 ann full (some (addNodeP par tr).1) f (addNodeP par tr).2.2
          (pos + k + 1) 0 (emitSeg cs ++ ')' :: (emitDist d ++ rest)) hwc1 hd3
          (emitSeg_stop cs (emitDist d ++ rest)) (by omega)
        rw [hp, eb_ok]
        have hd4 : full.drop (pos + k + 1 + 0 + (emitT c1).length) =
            emitSeg cs ++ ')' :: (emitDist d ++ rest) := by
          have h5 : full.drop (pos + k + 1) = emitT c1 ++
              (emitSeg cs ++ ')' :: (emitDist d ++ rest)) := by
            rw [hd3]; simp
          have h6 := drop_append_len h5
          simpa using h6
        obtain ⟨chd, X, hX, hXs⟩ := emitSeg_head cs (emitDist d ++ rest)
        have hskip2 : skipSpaces full (pos + k + 1 + 0 + (emitT c1).length) =
            pos + k + 1 + 0 + (emitT c1).length := by
          apply @skipSpaces_id full (pos + k + 1 + 0 + (emitT c1).length) chd X _ hXs
          rw [hd4, hX]
        dsimp only
        rw [hskip2]
        have hq := parseQ cs ann full (addNodeP par tr).1 f f
          (flattenT (some (addNodeP par tr).1) (addNodeP par tr).2.2 (mapRoundT c1))
          (pos + k + 1 + 0 + (emitT c1).length) (emitDist d ++ rest)
          hwcs hd4 (by omega) (by omega)
        rw [hq, eb_ok]
        dsimp only
        have hd5 : full.drop (pos + k + 1 + 0 + (emitT c1).length + (emitSeg cs).length) =
            ')' :: (emitDist d ++ rest) := drop_append_len hd4
        have hskip3 : skipSpaces full
            (pos + k + 1 + 0 + (emitT c1).length + (emitSeg cs).length) =
            pos + k + 1 + 0 + (emitT c1).length + (emitSeg cs).length :=
          skipSpaces_id hd5 (by decide)
        rw [hskip3, peekC_cons hd5]
        dsimp only
        rw [if_pos rfl]
        have hd6 : full.drop (pos + k + 1 + 0 + (emitT c1).length + (emitSeg cs).length + 1)
            = emitDist d ++ rest := drop_cons hd5
        have htail := @nodeTail_emit ann full par
          (addNodeP par tr).1 (addNodeP par tr).2.1
          (flattenL (addNodeP par tr).1
            (flattenT (some (addNodeP par tr).1) (addNodeP par tr).2.2 (mapRoundT c1))
            (mapRoundL cs))
          (pos + k + 1 + 0 + (emitT c1).length + (emitSeg cs).length + 1) none d rest
          (by
            show full.drop _ = [] ++ emitDist d ++ rest
            rw [hd6]
            simp)
          (by intro w hw2; cases hw2)
          hdok hrest
        rw [htail]
        have hnid : (addNodeP par tr).1 = tr.nodes.length := by
          cases par <;> rfl
        show _ = Except.ok (tr.nodes.length,
          flattenT par tr (.node none (d.map (fun q => ⟨rndAt 3 q, 3⟩))
            (.cons (mapRoundT c1) (mapRoundL cs))),
          pos + k + (emitT (.node none d (.cons c1 cs))).length)
        rw [show ∀ dd chh, flattenT par tr (NT.node none dd chh) =
            distUpd par (addNodeP par tr).1 (addNodeP par tr).2.1
              (titleUpd (addNodeP par tr).1
                (flattenL (addNodeP par tr).1 (addNodeP par tr).2.2 chh) none) dd
          from fun dd chh => rfl]
        rw [show ∀ a b, flattenL (addNodeP par tr).1 (addNodeP par tr).2.2 (NTL.cons a b)
            = flattenL (addNodeP par tr).1
              (flattenT (some (addNodeP par tr).1) (addNodeP par tr).2.2 a) b
          from fun a b => rfl]
        rw [hnid, hemit, hemitL]
        simp only [List.length_append, List.length_cons]
        congr 2
        congr 1
        simp only [List.length_nil]
        omega

theorem parseQ : ∀ (cs : NTL) (ann : Bool) (full : List Char) (nid : Nat)
    (fuelp fuelq : Nat) (tr : PTree) (pos : Nat) (rest2 : List Char),
    writableL cs = true →
    full.drop pos = emitSeg cs ++ ')' :: rest2 →
    sizeL cs ≤ fuelp →
    sizeL cs + 1 ≤ fuelq →
    childLoop full (fun t p => parse_node ann full fuelp (some nid) t p) fuelq tr pos
      = .ok (flattenL nid tr (mapRoundL cs), pos + (emitSeg cs).length)
  | .nil, ann, full, nid, fuelp, fuelq, tr, pos, rest2, hwL, hd, hfp, hfq => by
    obtain ⟨f, rfl⟩ : ∃ f, fuelq = f + 1 := by
      cases fuelq with
      | zero => omega
      | succ f => exact ⟨f, rfl⟩
    unfold childLoop
    dsimp only
    have hd2 : full.drop pos = ')' :: rest2 := by simpa [emitSeg] using hd
    rw [peekC_cons hd2]
    dsimp only
    rw [if_neg (by intro he; rw [Option.some_inj] at he; cases he)]
    unfold flattenL mapRoundL emitSeg
    simp
  | .cons c cs', ann, full, nid, fuelp, fuelq, tr, pos, rest2, hwL, hd, hfp, hfq => by
    obtain ⟨f, rfl⟩ : ∃ f, fuelq = f + 1 := by
      cases fuelq with
      | zero =>
          exfalso
          omega
      | succ f => exact ⟨f, rfl⟩
    have hwc : writableT c = true ∧ writableL cs' = true := by
      unfold writableL at hwL
      simpa [Bool.and_eq_true] using hwL
    have hd2 : full.drop pos =
        ',' :: (' ' :: (emitT c ++ (emitSeg cs' ++ ')' :: rest2))) := by
      rw [hd, show emitSeg (.cons c cs') = ',' :: ' ' :: (emitT c ++ emitSeg cs') from rfl]
      simp [List.append_assoc]
    unfold childLoop
    dsimp only
    rw [peekC_cons hd2]
    dsimp only
    rw [if_pos rfl]
    have hd3 : full.drop (pos + 1) = List.replicate 1 ' ' ++ emitT c ++
        (emitSeg cs' ++ ')' :: rest2) := by
      have := drop_cons hd2
      rw [this]
      simp
    have hsz : sizeL (.cons c cs') = sizeT c + sizeL cs' := rfl
    have hstc := sizeT_pos c
    have hp := parseP c ann full (some nid) fuelp tr (pos + 1) 1
      (emitSeg cs' ++ ')' :: rest2) hwc.1 hd3 (emitSeg_stop cs' rest2) (by omega)
    rw [hp, eb_ok]
    have hd4 : full.drop (pos + 1 + 1 + (emitT c).length) =
        emitSeg cs' ++ ')' :: rest2 := by
      have h5 : full.drop (pos + 1 + 1) = emitT c ++ (emitSeg cs' ++ ')' :: rest2) := by
        have h6 := @drop_append_len full (pos + 1) (List.replicate 1 ' ')
          (emitT c ++ (emitSeg cs' ++ ')' :: rest2)) (by rw [hd3]; simp [List.append_assoc])
        simpa using h6
      exact drop_append_len h5
    obtain ⟨chd, X, hX, hXs⟩ := emitSeg_head cs' rest2
    have hskip2 : skipSpaces full (pos + 1 + 1 + (emitT c).length) =
        pos + 1 + 1 + (emitT c).length := by
      apply @skipSpaces_id full (pos + 1 + 1 + (emitT c).length) chd X _ hXs
      rw [hd4, hX]
    dsimp only
    rw [hskip2]
    have hq := parseQ cs' ann full nid fuelp f
      (flattenT (some nid) tr (mapRoundT c)) (pos + 1 + 1 + (emitT c).length) rest2
      hwc.2 hd4 (by omega) (by omega)
    rw [hq]
    show _ = Except.ok (flattenL nid tr (mapRoundL (.cons c cs')),
      pos + (emitSeg (.cons c cs')).length)
    rw [show mapRoundL (.cons c cs') = .cons (mapRoundT c) (mapRoundL cs') from rfl,
      show ∀ a b, flattenL nid tr (NTL.cons a b) = flattenL nid (flattenT (some nid) tr a) b
        from fun a b => rfl,
      show emitSeg (.cons c cs') = ',' :: ' ' :: (emitT c ++ emitSeg cs') from rfl]
    simp only [List.length_cons, List.length_append]
    congr 2
    omega
end

theorem collapseGo_fix : ∀ (s : List Char) (prev : Bool), wsClean prev s = true →
    collapseGo prev s = s := by
  intro s
  induction s with
  | nil => intro prev _; rfl
  | cons c rest ih =>
      intro prev h
      unfold wsClean at h
      unfold collapseGo
      by_cases hc : isPySpace c = true
      · rw [if_pos hc] at h
        rw [hc]
        simp only [Bool.and_eq_true, Bool.not_eq_true', decide_eq_true_eq] at h
        obtain ⟨⟨hp, hsp⟩, hrest⟩ := h
        subst hp
        simp only [if_true, Bool.false_eq_true]
        rw [ih true hrest, hsp]
        simp
      · rw [if_neg hc] at h
        rw [Bool.not_eq_true] at hc
        rw [hc]
        simp only [if_false, Bool.false_eq_true]
        rw [ih false h]

theorem wsClean_head_any {ys : List Char} (hh : headNotSpace ys) (p q : Bool) :
    wsClean p ys = wsClean q ys := by
  cases ys with
  | nil => rfl
  | cons c r =>
      unfold wsClean
      unfold headNotSpace at hh
      rw [hh]
      simp

theorem wsClean_append {xs ys : List Char} : ∀ {p : Bool},
    wsClean p xs = true → headNotSpace ys → wsClean false ys = true →
    wsClean p (xs ++ ys) = true := by
  induction xs with
  | nil =>
      intro p hx hyh hy
      simpa using (wsClean_head_any hyh p false).trans hy
  | cons c xs' ih =>
      intro p hx hyh hy
      unfold wsClean at hx
      show (if isPySpace c = true then (!p && decide (c = ' ')) && wsClean true (xs' ++ ys)
        else wsClean false (xs' ++ ys)) = true
      by_cases hc : isPySpace c = true
      · rw [if_pos hc] at hx ⊢
        simp only [Bool.and_eq_true] at hx ⊢
        exact ⟨hx.1, ih hx.2 hyh hy⟩
      · rw [if_neg hc] at hx ⊢
        exact ih hx hyh hy

theorem wsClean_of_nonspace {s : List Char} (h : ∀ c ∈ s, isPySpace c = false) :
    ∀ p, wsClean p s = true := by
  induction s with
  | nil => intro p; rfl
  | cons c rest ih =>
      intro p
      unfold wsClean
      rw [h c (by simp)]
      exact ih (fun c hc => h c (by simp [hc])) false

theorem goodStr_append {xs ys : List Char} (hx : goodStr xs) (hy : goodStr ys)
    (hxne : xs ≠ []) (hyne : ys ≠ []) : goodStr (xs ++ ys) := by
  obtain ⟨hx1, hx2, hx3⟩ := hx
  obtain ⟨hy1, hy2, hy3⟩ := hy
  have hyh : headNotSpace ys := by
    cases ys with
    | nil => trivial
    | cons c r => exact hy1 c rfl
  refine ⟨?_, ?_, wsClean_append hx3 hyh hy3⟩
  · intro c hc
    cases xs with
    | nil => exact absurd rfl hxne
    | cons a r =>
        simp only [List.cons_append, List.head?_cons, Option.some_inj] at hc
        exact hc ▸ hx1 a rfl
  · intro c hc
    rw [List.getLast?_append_of_ne_nil xs hyne] at hc
    exact hy2 c hc

theorem goodStr_of_nonspace {s : List Char}
    (h : ∀ c ∈ s, isPySpace c = false ∧ c ≠ ';') : goodStr s := by
  refine ⟨?_, ?_, wsClean_of_nonspace (fun c hc => (h c hc).1) false⟩
  · intro c hc
    cases s with
    | nil => cases hc
    | cons a r =>
        simp only [List.head?_cons, Option.some_inj] at hc
        subst hc
        exact (h a (by simp)).1
  · intro c hc
    exact h c (List.mem_of_mem_getLast? hc)

theorem goodStr_nil : goodStr [] := by
  refine ⟨?_, ?_, rfl⟩ <;> intro c hc <;> cases hc

theorem goodStr_append2 {xs ys : List Char} (hx : goodStr xs) (hy : goodStr ys)
    (hxne : xs ≠ []) : goodStr (xs ++ ys) := by
  cases hys : ys with
  | nil => rw [List.append_nil]; exact hx
  | cons a r => exact goodStr_append hx (hys ▸ hy) hxne (by simp)

theorem nameChar_good {c : Char} (h : isNameChar c = true) :
    isPySpace c = false ∧ c ≠ ';' := by
  refine ⟨nameChar_not_space h, ?_⟩
  intro he; subst he; cases h

theorem fmtFixed_chars {d : Dc} {c : Char} (hc : c ∈ fmtFixed 3 d) :
    isDigitC c = true ∨ c = '-' ∨ c = '.' := by
  unfold fmtFixed at hc
  dsimp only at hc
  rcases List.mem_append.mp hc with hc | hc
  · rcases List.mem_append.mp hc with hc | hc
    · split at hc
      · exact Or.inr (Or.inl (List.mem_singleton.mp hc))
      · cases hc
    · exact Or.inl (natChars_digits _ c hc)
  · rcases List.mem_cons.mp hc with hc | hc
    · exact Or.inr (Or.inr hc)
    · rcases List.mem_append.mp hc with hc | hc
      · exact Or.inl (by rw [List.eq_of_mem_replicate hc]; rfl)
      · exact Or.inl (natChars_digits _ c hc)

theorem fmtFixed_good (d : Dc) : goodStr (fmtFixed 3 d) := by
  apply goodStr_of_nonspace
  intro c hc
  rcases fmtFixed_chars hc with h | h | h
  · exact ⟨digit_not_space h, by intro he; subst he; cases h⟩
  · subst h; exact ⟨rfl, by decide⟩
  · subst h; exact ⟨rfl, by decide⟩

theorem emitDist_good (d : Option Dc) : goodStr (emitDist d) := by
  cases d with
  | none => exact goodStr_nil
  | some q =>
      show goodStr (':' :: fmtFixed 3 q)
      have h1 : goodStr [':'] := goodStr_of_nonspace (by intro c hc; rw [List.mem_singleton.mp hc]; exact ⟨rfl, by decide⟩)
      have := goodStr_append2 h1 (fmtFixed_good q) (by simp)
      simpa using this

mutual
theorem emitT_good : ∀ t : NT, writableT t = true → goodStr (emitT t) ∧ emitT t ≠ []
  | .node ti d ch, hw => by
    cases ch with
    | nil =>
        obtain ⟨⟨w, rfl, hwne, hwall⟩, _⟩ := writableT_tip hw
        have hwg : goodStr w := goodStr_of_nonspace (fun c hc => nameChar_good (hwall c hc))
        have hemit : emitT (.node (some w) d .nil) = w ++ emitDist d := rfl
        rw [hemit]
        exact ⟨goodStr_append2 hwg (emitDist_good d) hwne, by simp [hwne]⟩
    | cons c1 cs =>
        obtain ⟨hti, _, hwc1, hwcs⟩ := writableT_internal hw
        subst hti
        have hemit : emitT (.node none d (.cons c1 cs)) =
            ('(' :: (emitL (.cons c1 cs) ++ [')'])) ++ emitDist d := rfl
        rw [hemit]
        have hL : goodStr (emitL (.cons c1 cs)) ∧ emitL (.cons c1 cs) ≠ [] := by
          have h1 := emitT_good c1 hwc1
          have h2 := emitSeg_good cs hwcs
          have hemL : emitL (.cons c1 cs) = emitT c1 ++ emitSeg cs := rfl
          rw [hemL]
          exact ⟨goodStr_append2 h1.1 h2 h1.2, by simp [h1.2]⟩
        have hparen : goodStr ['('] :=
          goodStr_of_nonspace (by intro c hc; rw [List.mem_singleton.mp hc]; exact ⟨rfl, by decide⟩)
        have hparen2 : goodStr [')'] :=
          goodStr_of_nonspace (by intro c hc; rw [List.mem_singleton.mp hc]; exact ⟨rfl, by decide⟩)
        have hbody : goodStr ('(' :: (emitL (.cons c1 cs) ++ [')'])) := by
          have := goodStr_append2 hparen
            (goodStr_append2 hL.1 hparen2 hL.2) (by simp)
          simpa using this
        exact ⟨goodStr_append2 hbody (emitDist_good d) (by simp), by simp⟩

theorem emitSeg_good : ∀ cs : NTL, writableL cs = true → goodStr (emitSeg cs)
  | .nil, _ => goodStr_nil
  | .cons c cs', hw => by
    have hwc : writableT c = true ∧ writableL cs' = true := by
      unfold writableL at hw
      simpa [Bool.and_eq_true] using hw
    obtain ⟨hcg, hcne⟩ := emitT_good c hwc.1
    have hsg := emitSeg_good cs' hwc.2
    have hX : goodStr (emitT c ++ emitSeg cs') := goodStr_append2 hcg hsg hcne
    have hXne : emitT c ++ emitSeg cs' ≠ [] := by simp [hcne]
    have hemit : emitSeg (.cons c cs') = ',' :: ' ' :: (emitT c ++ emitSeg cs') := rfl
    rw [hemit]
    obtain ⟨hX1, hX2, hX3⟩ := hX
    refine ⟨?_, ?_, ?_⟩
    · intro cc hcc
      simp only [List.head?_cons, Option.some_inj] at hcc
      subst hcc
      rfl
    · intro cc hcc
      rw [show (',' :: ' ' :: (emitT c ++ emitSeg cs')) = [',', ' '] ++ (emitT c ++ emitSeg cs') from rfl,
        List.getLast?_append_of_ne_nil _ hXne] at hcc
      exact hX2 cc hcc
    · show wsClean false (',' :: ' ' :: (emitT c ++ emitSeg cs')) = true
      have hhead : headNotSpace (emitT c ++ emitSeg cs') := by
        cases hcc : emitT c ++ emitSeg cs' with
        | nil => trivial
        | cons a r =>
            show isPySpace a = false
            apply hX1
            rw [hcc]
            rfl
      show (if isPySpace ',' = true then (!false && decide (',' = ' ')) && wsClean true (' ' :: (emitT c ++ emitSeg cs'))
        else wsClean false (' ' :: (emitT c ++ emitSeg cs'))) = true
      rw [if_neg (by decide)]
      show (if isPySpace ' ' = true then (!false && decide (' ' = ' ')) && wsClean true (emitT c ++ emitSeg cs')
        else wsClean false (emitT c ++ emitSeg cs')) = true
      rw [if_pos (by decide)]
      simp only [Bool.and_eq_true]
      exact ⟨by decide, by rw [wsClean_head_any hhead true false]; exact hX3⟩
end

theorem dropWhile_fix {s : List Char}
    (hh : ∀ c, s.head? = some c → isPySpace c = false) :
    s.dropWhile isPySpace = s := by
  cases s with
  | nil => rfl
  | cons c r =>
      rw [List.dropWhile_cons, if_neg (by rw [hh c rfl]; simp)]

theorem pstrip_fix {s : List Char}
    (hh : ∀ c, s.head? = some c → isPySpace c = false)
    (hl : ∀ c, s.getLast? = some c → isPySpace c = false) :
    pstrip s = s := by
  unfold pstrip
  rw [dropWhile_fix hh]
  rw [dropWhile_fix (by
    intro c hc
    rw [List.head?_reverse] at hc
    exact hl c hc)]
  exact List.reverse_reverse s

/-- `_read`'s normalization leaves the writer's output unchanged. -/
theorem normalizeStr_emitT {t : NT} (hw : writableT t = true) :
    normalizeStr (emitT t) = emitT t := by
  obtain ⟨⟨hg1, hg2, hg3⟩, hne⟩ := emitT_good t hw
  unfold normalizeStr
  dsimp only
  rw [pstrip_fix hg1 (fun c hc => (hg2 c hc).1)]
  rw [if_neg (by
    intro hc
    exact (hg2 ';' hc).2 rfl)]
  exact collapseGo_fix _ false hg3

mutual
theorem sizeT_le_emit : ∀ t : NT, writableT t = true → sizeT t ≤ (emitT t).length
  | .node ti d ch, hw => by
    cases ch with
    | nil =>
        obtain ⟨⟨w, rfl, hwne, _⟩, _⟩ := writableT_tip hw
        have hemit : emitT (.node (some w) d .nil) = w ++ emitDist d := rfl
        have hsz : sizeT (.node (some w) d .nil) = 1 := rfl
        rw [hemit, hsz, List.length_append]
        have : 1 ≤ w.length := by
          cases w with
          | nil => exact absurd rfl hwne
          | cons a r => simp
        omega
    | cons c1 cs =>
        obtain ⟨hti, _, hwc1, hwcs⟩ := writableT_internal hw
        subst hti
        have hemit : emitT (.node none d (.cons c1 cs)) =
            ('(' :: (emitL (.cons c1 cs) ++ [')'])) ++ emitDist d := rfl
        have hsz : sizeT (.node none d (.cons c1 cs)) = 1 + (sizeT c1 + sizeL cs) := rfl
        have h1 := sizeT_le_emit c1 hwc1
        have h2 := sizeL_le_emit cs hwcs
        have hemL : emitL (.cons c1 cs) = emitT c1 ++ emitSeg cs := rfl
        rw [hemit, hsz, hemL]
        simp only [List.length_cons, List.length_append, List.length_singleton]
        omega

theorem sizeL_le_emit : ∀ cs : NTL, writableL cs = true → sizeL cs ≤ (emitSeg cs).length
  | .nil, _ => by simp [sizeL, emitSeg]
  | .cons c cs', hw => by
    have hwc : writableT c = true ∧ writableL cs' = true := by
      unfold writableL at hw
      simpa [Bool.and_eq_true] using hw
    have h1 := sizeT_le_emit c hwc.1
    have h2 := sizeL_le_emit cs' hwc.2
    have hemit : emitSeg (.cons c cs') = ',' :: ' ' :: (emitT c ++ emitSeg cs') := rfl
    have hsz : sizeL (.cons c cs') = sizeT c + sizeL cs' := rfl
    rw [hemit, hsz]
    simp only [List.length_cons, List.length_append]
    omega
end

/-- Reading back exactly what the writer emits reconstructs the tree (with
every distance rounded to the `%.3f` precision). -/
theorem readL_emitT {t : NT} (ann : Bool) (hw : writableT t = true) :
    readL ann (emitT t) = .ok (flatten (mapRoundT t)) := by
  obtain ⟨_, hne⟩ := emitT_good t hw
  unfold readL
  dsimp only
  rw [normalizeStr_emitT hw]
  rw [if_neg hne, if_pos rfl]
  have hp := parseP t ann (emitT t) none (2 * (emitT t).length + 4) emptyPTree 0 0 []
    hw (by simp) (Or.inl rfl)
    (by have := sizeT_le_emit t hw; omega)
  rw [hp, eb_ok]
  rfl

mutual
theorem nodesOfT_len : ∀ (isRoot : Bool) (t : NT), (nodesOfT isRoot t).length = sizeT t
  | isRoot, .node ti d ch => by
      show (nodeAttrs ti _ :: nodesOfL ch).length = 1 + sizeL ch
      rw [List.length_cons, nodesOfL_len ch]
      omega
theorem nodesOfL_len : ∀ cs : NTL, (nodesOfL cs).length = sizeL cs
  | .nil => rfl
  | .cons c cs => by
      show (nodesOfT false c ++ nodesOfL cs).length = sizeT c + sizeL cs
      rw [List.length_append, nodesOfT_len false c, nodesOfL_len cs]
end

theorem listModify_append_right (xs ys : List α) (i : Nat) (f : α → α) :
    listModify (xs ++ ys) (xs.length + i) f = xs ++ listModify ys i f := by
  induction xs with
  | nil => simp
  | cons a rest ih =>
      show listModify (a :: (rest ++ ys)) (rest.length + 1 + i) f
        = a :: (rest ++ listModify ys i f)
      rw [show rest.length + 1 + i = (rest.length + i) + 1 by omega]
      show a :: listModify (rest ++ ys) (rest.length + i) f = _
      rw [ih]

theorem listModify_boundary (xs : List α) (y : α) (ys : List α) (f : α → α) :
    listModify (xs ++ y :: ys) xs.length f = xs ++ f y :: ys := by
  have h := listModify_append_right xs (y :: ys) 0 f
  simpa using h

mutual
/-- Structure of `flattenT`: it appends the subtree's nodes and branches and,
at the root call, sets the root id. -/
theorem flattenT_struct : ∀ (t : NT) (par : Option Nat) (tr : PTree),
    flattenT par tr t = ⟨tr.nodes ++ nodesOfT par.isNone t,
      tr.branches ++ branchesOfT tr.nodes.length par t,
      if par.isSome then tr.root else some tr.nodes.length⟩
  | .node ti d ch, par, tr => by
    cases par with
    | none =>
        have hL := flattenL_struct ch tr.nodes.length
          ⟨tr.nodes ++ [[]], tr.branches, some tr.nodes.length⟩
        dsimp only at hL
        simp only [List.length_append, List.length_cons, List.length_nil, Nat.zero_add] at hL
        show distUpd none tr.nodes.length none (titleUpd tr.nodes.length
          (flattenL tr.nodes.length
            ⟨tr.nodes ++ [[]], tr.branches, some tr.nodes.length⟩ ch) ti) d = _
        rw [hL]
        unfold titleUpd distUpd
        cases ti with
        | some w =>
            cases d with
            | some q =>
                show setNodeAttr (setNodeAttr _ _ kTitle (.str w)) _ kDistance (.num q) = _
                simp only [setNodeAttr, setBranchAttr, List.append_assoc, List.singleton_append,
                  listModify_boundary]
                rfl
            | none =>
                show setNodeAttr _ _ kTitle (.str w) = _
                simp only [setNodeAttr, setBranchAttr, List.append_assoc, List.singleton_append,
                  listModify_boundary]
                rfl
        | none =>
            cases d with
            | some q =>
                show setNodeAttr _ _ kDistance (.num q) = _
                simp only [setNodeAttr, setBranchAttr, List.append_assoc, List.singleton_append,
                  listModify_boundary]
                rfl
            | none =>
                simp only [List.append_assoc, List.singleton_append]
                rfl
    | some p =>
        have hL := flattenL_struct ch tr.nodes.length
          ⟨tr.nodes ++ [[]], tr.branches ++ [(p, tr.nodes.length, [])], tr.root⟩
        dsimp only at hL
        simp only [List.length_append, List.length_cons, List.length_nil, Nat.zero_add] at hL
        show distUpd (some p) tr.nodes.length (some tr.branches.length)
          (titleUpd tr.nodes.length (flattenL tr.nodes.length
            ⟨tr.nodes ++ [[]], tr.branches ++ [(p, tr.nodes.length, [])], tr.root⟩ ch) ti) d = _
        rw [hL]
        unfold titleUpd distUpd
        cases ti with
        | some w =>
            cases d with
            | some q =>
                show setBranchAttr (setNodeAttr _ _ kTitle (.str w)) _ kDistance (.num q) = _
                simp only [setNodeAttr, setBranchAttr, List.append_assoc, List.singleton_append,
                  listModify_boundary]
                rfl
            | none =>
                show setNodeAttr _ _ kTitle (.str w) = _
                simp only [setNodeAttr, setBranchAttr, List.append_assoc, List.singleton_append,
                  listModify_boundary]
                rfl
        | none =>
            cases d with
            | some q =>
                show setBranchAttr _ _ kDistance (.num q) = _
                simp only [setNodeAttr, setBranchAttr, List.append_assoc, List.singleton_append,
                  listModify_boundary]
                rfl
            | none =>
                simp only [List.append_assoc, List.singleton_append]
                rfl

theorem flattenL_struct : ∀ (cs : NTL) (nid : Nat) (tr : PTree),
    flattenL nid tr cs = ⟨tr.nodes ++ nodesOfL cs,
      tr.branches ++ branchesOfL tr.nodes.length nid cs, tr.root⟩
  | .nil, nid, tr => by
      show tr = _
      cases tr
      simp [nodesOfL, branchesOfL]
  | .cons c cs, nid, tr => by
      show flattenL nid (flattenT (some nid) tr c) cs = _
      rw [flattenT_struct c (some nid) tr]
      rw [flattenL_struct cs nid _]
      dsimp only
      rw [show (tr.nodes ++ nodesOfT (some nid : Option Nat).isNone c).length
          = tr.nodes.length + sizeT c by
        rw [List.length_append, nodesOfT_len]]
      show (⟨(tr.nodes ++ nodesOfT false c) ++ nodesOfL cs,
        (tr.branches ++ branchesOfT tr.nodes.length (some nid) c) ++
          branchesOfL (tr.nodes.length + sizeT c) nid cs, tr.root⟩ : PTree) = _
      rw [List.append_assoc, List.append_assoc]
      rfl
end

theorem flatten_struct (t : NT) :
    flatten t = ⟨nodesOfT true t, branchesOfT 0 none t, some 0⟩ := by
  unfold flatten
  rw [flattenT_struct]
  rfl

theorem childBases_range : ∀ (cs : NTL) (base : Nat) (x : Nat),
    x ∈ childBases base cs → base ≤ x ∧ x < base + sizeL cs
  | .nil, base, x, h => by cases h
  | .cons c cs, base, x, h => by
      rw [show childBases base (.cons c cs) = base :: childBases (base + sizeT c) cs from rfl]
        at h
      rcases List.mem_cons.mp h with h | h
      · subst h
        have := sizeT_pos c
        refine ⟨Nat.le_refl _, ?_⟩
        rw [show sizeL (.cons c cs) = sizeT c + sizeL cs from rfl]
        omega
      · have := childBases_range cs (base + sizeT c) x h
        rw [show sizeL (.cons c cs) = sizeT c + sizeL cs from rfl]
        omega

mutual
theorem branchesOfT_range : ∀ (t : NT) (base : Nat) (par : Option Nat)
    (b : Nat × Nat × Attrs), b ∈ branchesOfT base par t →
    (base ≤ b.2.1 ∧ b.2.1 < base + sizeT t) ∧
      ((base ≤ b.1 ∧ b.1 < base + sizeT t) ∨ par = some b.1)
  | .node ti d ch, base, par, b, h => by
      have hsz : sizeT (.node ti d ch) = 1 + sizeL ch := rfl
      cases par with
      | none =>
          rw [show branchesOfT base none (.node ti d ch)
              = [] ++ branchesOfL (base + 1) base ch from rfl] at h
          have := branchesOfL_range ch (base + 1) base b (by simpa using h)
          rw [hsz]
          rcases this with ⟨hc, hp | hp⟩
          · exact ⟨by omega, Or.inl (by omega)⟩
          · exact ⟨by omega, Or.inl (by omega)⟩
      | some p =>
          rw [show branchesOfT base (some p) (.node ti d ch)
              = [(p, base, branchAttrs d)] ++ branchesOfL (base + 1) base ch from rfl] at h
          rcases List.mem_append.mp h with h | h
          · rcases List.mem_singleton.mp h with rfl
            refine ⟨⟨Nat.le_refl _, ?_⟩, Or.inr rfl⟩
            rw [hsz]
            show base < base + (1 + sizeL ch)
            omega
          · have := branchesOfL_range ch (base + 1) base b h
            rw [hsz]
            rcases this with ⟨hc, hp | hp⟩
            · exact ⟨by omega, Or.inl (by omega)⟩
            · exact ⟨by omega, Or.inl (by omega)⟩
theorem branchesOfL_range : ∀ (cs : NTL) (base nid : Nat)
    (b : Nat × Nat × Attrs), b ∈ branchesOfL base nid cs →
    (base ≤ b.2.1 ∧ b.2.1 < base + sizeL cs) ∧
      ((base ≤ b.1 ∧ b.1 < base + sizeL cs) ∨ b.1 = nid)
  | .nil, base, nid, b, h => by cases h
  | .cons c cs, base, nid, b, h => by
      rw [show branchesOfL base nid (.cons c cs)
          = branchesOfT base (some nid) c ++ branchesOfL (base + sizeT c) nid cs from rfl] at h
      have hsz : sizeL (.cons c cs) = sizeT c + sizeL cs := rfl
      rw [hsz]
      rcases List.mem_append.mp h with h | h
      · rcases branchesOfT_range c base (some nid) b h with ⟨hc, hp | hp⟩
        · exact ⟨by omega, Or.inl (by omega)⟩
        · exact ⟨by omega, Or.inr (Option.some.inj hp).symm⟩
      · rcases branchesOfL_range cs (base + sizeT c) nid b h with ⟨hc, hp | hp⟩
        · exact ⟨by omega, Or.inl (by omega)⟩
        · exact ⟨by omega, Or.inr hp⟩
end

theorem adjOf_cons (b : Nat × Nat × Attrs) (B : List (Nat × Nat × Attrs)) (n : Nat) :
    adjOf (b :: B) n
      = (if b.1 = n then [b.2.1] else if b.2.1 = n then [b.1] else []) ++ adjOf B n := rfl

theorem adjOf_append (B1 B2 : List (Nat × Nat × Attrs)) (n : Nat) :
    adjOf (B1 ++ B2) n = adjOf B1 n ++ adjOf B2 n := by
  induction B1 with
  | nil => rfl
  | cons b B1 ih =>
      rw [List.cons_append, adjOf_cons, adjOf_cons, ih, List.append_assoc]

theorem adjOf_nil (B : List (Nat × Nat × Attrs)) (n : Nat)
    (h : ∀ b ∈ B, b.1 ≠ n ∧ b.2.1 ≠ n) : adjOf B n = [] := by
  induction B with
  | nil => rfl
  | cons b B ih =>
      rw [adjOf_cons, if_neg (h b (List.mem_cons_self b B)).1,
        if_neg (h b (List.mem_cons_self b B)).2,
        ih (fun x hx => h x (List.mem_cons_of_mem b hx))]
      rfl

theorem adjOf_branchesOfT_par (t : NT) (base nid : Nat) (h : nid < base) :
    adjOf (branchesOfT base (some nid) t) nid = [base] := by
  cases t with
  | node ti d ch =>
      rw [show branchesOfT base (some nid) (.node ti d ch)
          = (nid, base, branchAttrs d) :: branchesOfL (base + 1) base ch from rfl]
      rw [adjOf_cons, if_pos rfl,
        adjOf_nil (branchesOfL (base + 1) base ch) nid (fun b hb => by
          rcases branchesOfL_range ch (base + 1) base b hb with ⟨hc, hp | hp⟩
          · constructor <;> omega
          · constructor <;> omega)]
      rfl

theorem adjOf_branchesOfL_par : ∀ (cs : NTL) (base nid : Nat), nid < base →
    adjOf (branchesOfL base nid cs) nid = childBases base cs
  | .nil, base, nid, _ => rfl
  | .cons c cs, base, nid, h => by
      rw [show branchesOfL base nid (.cons c cs)
          = branchesOfT base (some nid) c ++ branchesOfL (base + sizeT c) nid cs from rfl,
        adjOf_append, adjOf_branchesOfT_par c base nid h,
        adjOf_branchesOfL_par cs (base + sizeT c) nid (by omega)]
      rfl

theorem attrGet_nodeAttrs_title (ti : Option (List Char)) (dopt : Option Dc) :
    attrGet (nodeAttrs ti dopt) kTitle = ti.map .str := by
  cases ti <;> cases dopt <;> simp [nodeAttrs, attrGet, kTitle, kDistance]

theorem attrGet_nodeAttrs_name (ti : Option (List Char)) (dopt : Option Dc) :
    attrGet (nodeAttrs ti dopt) kName = none := by
  cases ti <;> cases dopt <;> simp [nodeAttrs, attrGet, kTitle, kDistance, kName]

theorem attrGet_nodeAttrs_support (ti : Option (List Char)) (dopt : Option Dc) :
    attrGet (nodeAttrs ti dopt) kSupport = none := by
  cases ti <;> cases dopt <;> simp [nodeAttrs, attrGet, kTitle, kDistance, kSupport]

theorem attrGet_nodeAttrs_dist (ti : Option (List Char)) (dopt : Option Dc) :
    attrGet (nodeAttrs ti dopt) kDistance = dopt.map .num := by
  cases ti <;> cases dopt <;> simp [nodeAttrs, attrGet, kTitle, kDistance]

theorem attrGet_branchAttrs_dist (dopt : Option Dc) :
    attrGet (branchAttrs dopt) kDistance = dopt.map .num := by
  cases dopt <;> simp [branchAttrs, attrGet]

theorem getD_boundary (pre : List α) (x : α) (l2 : List α) (dflt : α) :
    (pre ++ x :: l2).getD pre.length dflt = x := by
  induction pre with
  | nil => rfl
  | cons a l ih => simpa [List.getD] using ih

theorem nameChar_ne_comma {c : Char} (h : isNameChar c = true) : c ≠ ',' := by
  intro he; subst he; cases h

/-- A plain name made of name characters needs no quoting. -/
theorem writerTipName_id (w : List Char) (h : w.all isNameChar = true) :
    writerTipName w = w := by
  have hq : hasQuotedRun w = false := by
    unfold hasQuotedRun
    rw [List.dropWhile_eq_nil_iff.mpr]
    intro x hx
    simp only [ne_eq, decide_not, Bool.not_eq_eq_eq_not, Bool.not_true, decide_eq_false_iff_not]
    exact nameChar_ne_quote (by
      rw [List.all_eq_true] at h
      exact h x hx)
  have hs : hasSpaceComma w = false := by
    unfold hasSpaceComma
    rw [List.any_eq_false]
    intro x hx
    rw [List.all_eq_true] at h
    have hn := h x hx
    simp only [Bool.or_eq_true, decide_eq_true_eq, not_or]
    exact ⟨by rw [nameChar_not_space hn]; simp, nameChar_ne_comma hn⟩
  unfold writerTipName
  rw [hq, hs]
  rfl

theorem find?_append_none {p : α → Bool} {l1 : List α} (l2 : List α)
    (h : ∀ x ∈ l1, p x = false) : (l1 ++ l2).find? p = l2.find? p := by
  induction l1 with
  | nil => rfl
  | cons a l ih =>
      rw [List.cons_append, List.find?_cons, h a (List.mem_cons_self a l),
        ih (fun x hx => h x (List.mem_cons_of_mem a hx))]

/-- `get_distance` on a tree whose branch list contains the parent edge,
preceded only by branches not touching the child. -/
theorem getDistance_decomp (ns : List Attrs) (rt : Option Nat)
    (bpre rest : List (Nat × Nat × Attrs)) (base p : Nat) (d : Option Dc)
    (hpre : ∀ b ∈ bpre, b.1 ≠ base ∧ b.2.1 ≠ base) :
    getDistance ⟨ns, bpre ++ (p, base, branchAttrs d) :: rest, rt⟩ base p
      = d.map .num := by
  unfold getDistance
  dsimp only
  rw [find?_append_none ((p, base, branchAttrs d) :: rest) (fun b hb => by
    rcases hpre b hb with ⟨h1, h2⟩
    simp [h1, h2])]
  rw [List.find?_cons_of_pos _ (by simp)]
  exact attrGet_branchAttrs_dist d

theorem intercalate_emitParts : ∀ cs : NTL,
    List.intercalate (String.toList ", ") (emitParts cs) = emitL cs
  | .nil => rfl
  | .cons c .nil => by
      show List.intercalate (String.toList ", ") [emitT c] = emitT c ++ emitSeg .nil
      rw [show emitSeg NTL.nil = ([] : List Char) from rfl, List.append_nil]
      simp [List.intercalate]
  | .cons c (.cons c2 cs) => by
      have ih := intercalate_emitParts (.cons c2 cs)
      show List.intercalate (String.toList ", ")
        (emitT c :: emitT c2 :: emitParts cs) = emitT c ++ emitSeg (.cons c2 cs)
      unfold List.intercalate at *
      simp only [List.intersperse_cons_cons, List.flatten_cons]
      rw [show emitParts (NTL.cons c2 cs) = emitT c2 :: emitParts cs from rfl] at ih
      rw [ih]
      rfl

theorem getDistance_decomp2 (G : PTree) (bpre rest : List (Nat × Nat × Attrs))
    (base p : Nat) (d : Option Dc)
    (hB : G.branches = bpre ++ (p, base, branchAttrs d) :: rest)
    (hpre : ∀ b ∈ bpre, b.1 ≠ base ∧ b.2.1 ≠ base) :
    getDistance G base p = d.map .num := by
  unfold getDistance
  rw [hB, find?_append_none _ (fun b hb => by
      rcases hpre b hb with ⟨h1, h2⟩
      simp [h1, h2]),
    List.find?_cons_of_pos _ (by simp)]
  exact attrGet_branchAttrs_dist d

theorem writeNode_succ (G : PTree) (f n : Nat) (par : Option Nat) :
    writeNode G (f + 1) n par = eb (structPartDef G f n par)
      (fun s1 => eb (distPartDef G n par) (fun s2 => .ok (s1 ++ s2))) := rfl

theorem distPartDef_eval_root (G : PTree) (n : Nat) (d : Option Dc)
    (h : attrGet (G.nodes.getD n []) kDistance = d.map .num) :
    distPartDef G n none = .ok (emitDist d) := by
  rw [show distPartDef G n none
      = (match attrGet (G.nodes.getD n []) kDistance with
         | some (.num q) => Except.ok (':' :: fmtFixed 3 q)
         | some (.str _) => Except.error Err.typeErr
         | none => Except.ok ([] : List Char)) from rfl, h]
  cases d <;> rfl

theorem distPartDef_eval_par (G : PTree) (n p : Nat) (d : Option Dc)
    (h : getDistance G n p = d.map .num) :
    distPartDef G n (some p) = .ok (emitDist d) := by
  rw [show distPartDef G n (some p)
      = (match getDistance G n p with
         | some (.num q) => Except.ok (':' :: fmtFixed 3 q)
         | some (.str _) => Except.error Err.typeErr
         | none => Except.ok ([] : List Char)) from rfl, h]
  cases d <;> rfl

theorem structPartDef_tip (G : PTree) (fuel n : Nat) (par : Option Nat)
    (w : List Char) (htip : isNodeTip G n = true)
    (horf : orFalsy (attrGet (G.nodes.getD n []) kTitle)
      (attrGet (G.nodes.getD n []) kName) = some (.str w))
    (hok : writerTipName w = w) :
    structPartDef G fuel n par = .ok w := by
  unfold structPartDef
  rw [if_pos htip, horf]
  show Except.ok (writerTipName w) = Except.ok w
  rw [hok]

theorem structPartDef_internal (G : PTree) (fuel n : Nat) (par : Option Nat)
    (cbs : List Nat) (parts : List (List Char))
    (htip : isNodeTip G n = false)
    (hch : (adjacentNodes G n).filter (fun m => par ≠ some m) = cbs)
    (hwc : writeChildren (fun c => writeNode G fuel c (some n)) cbs = .ok parts)
    (hsup : attrGet (G.nodes.getD n []) kSupport = none) :
    structPartDef G fuel n par
      = .ok ('(' :: List.intercalate (String.toList ", ") parts ++ [')']) := by
  unfold structPartDef
  rw [if_neg (by simp [htip]), hch]
  dsimp only
  rw [hwc, eb_ok]
  show (match attrGet (G.nodes.getD n []) kSupport with
    | some (.num q) => Except.ok ('(' :: List.intercalate (String.toList ", ") parts ++
        ')' :: fmtFixed 2 q)
    | some (.str _) => Except.error Err.typeErr
    | none => Except.ok ('(' :: List.intercalate (String.toList ", ") parts ++ [')']))
    = Except.ok ('(' :: List.intercalate (String.toList ", ") parts ++ [')'])
  rw [hsup]

mutual
/-- `_writeNode` on a flattened subtree sitting at node id `pre.length`
reproduces the emitted text of the shape. -/
theorem writeNode_emitT : ∀ (t : NT) (G : PTree) (pre post : List Attrs)
    (bpre bpost : List (Nat × Nat × Attrs)) (par : Option Nat) (f : Nat),
    writableT t = true →
    G.nodes = pre ++ nodesOfT par.isNone t ++ post →
    G.branches = bpre ++ branchesOfT pre.length par t ++ bpost →
    (∀ b ∈ bpre ++ bpost, (b.1 < pre.length ∨ pre.length + sizeT t ≤ b.1) ∧
      (b.2.1 < pre.length ∨ pre.length + sizeT t ≤ b.2.1)) →
    (∀ p, par = some p → p < pre.length ∨ pre.length + sizeT t ≤ p) →
    sizeT t ≤ f →
    writeNode G f pre.length par = .ok (emitT t)
  | .node ti d ch, G, pre, post, bpre, bpost, par, f, hw, hN, hB, hout, hpar, hf => by
    cases f with
    | zero =>
        have := sizeT_pos (NT.node ti d ch)
        omega
    | succ f =>
    cases ch with
    | nil =>
        cases ti with
        | none =>
            rw [show writableT (NT.node none d NTL.nil) = false from rfl] at hw
            cases hw
        | some w =>
        simp only [show sizeT (NT.node (some w) d NTL.nil) = 1 from rfl] at hout hpar
        rw [show writableT (NT.node (some w) d NTL.nil)
            = ((!w.isEmpty && w.all isNameChar) && distOK d && writableL NTL.nil) from rfl] at hw
        simp only [Bool.and_eq_true] at hw
        have hwall : w.all isNameChar = true := hw.1.1.2
        have hwne : ¬(w = []) := by
          intro h
          subst h
          exact absurd hw.1.1.1 (by decide)
        cases par with
        | none =>
            rw [show branchesOfT pre.length none (NT.node (some w) d NTL.nil)
                = [] from rfl] at hB
            simp only [List.append_nil] at hB
            have hany : (G.branches.any fun b => b.1 = pre.length) = false := by
              rw [hB]
              refine List.any_eq_false.mpr ?_
              intro b hb
              rcases hout b hb with ⟨h1, _⟩
              intro hq
              have hbq : b.1 = pre.length := of_decide_eq_true hq
              omega
            have htip : isNodeTip G pre.length = true := by
              unfold isNodeTip
              rw [hany]
              rfl
            have hget : G.nodes.getD pre.length [] = nodeAttrs (some w) d := by
              rw [hN, show nodesOfT (none : Option Nat).isNone (NT.node (some w) d NTL.nil)
                  = [nodeAttrs (some w) d] from rfl, List.append_assoc]
              simp only [List.singleton_append]
              exact getD_boundary pre _ post []
            have horf : orFalsy (attrGet (G.nodes.getD pre.length []) kTitle)
                (attrGet (G.nodes.getD pre.length []) kName) = some (.str w) := by
              rw [hget, attrGet_nodeAttrs_title, attrGet_nodeAttrs_name]
              show (if w = [] then (none : Option Val) else some (Val.str w)) = some (Val.str w)
              rw [if_neg hwne]
            rw [writeNode_succ,
              structPartDef_tip G f pre.length none w htip horf (writerTipName_id w hwall),
              eb_ok]
            show eb (distPartDef G pre.length none) (fun s2 => Except.ok (w ++ s2))
              = Except.ok (emitT (NT.node (some w) d NTL.nil))
            rw [distPartDef_eval_root G pre.length d
              (by rw [hget, attrGet_nodeAttrs_dist]), eb_ok]
            rfl
        | some p =>
            rw [show branchesOfT pre.length (some p) (NT.node (some w) d NTL.nil)
                = [(p, pre.length, branchAttrs d)] from rfl] at hB
            have hp := hpar p rfl
            have hany : (G.branches.any fun b => b.1 = pre.length) = false := by
              rw [hB]
              refine List.any_eq_false.mpr ?_
              intro b hb
              intro hq
              have hbq : b.1 = pre.length := of_decide_eq_true hq
              rcases List.mem_append.mp hb with hb | hb
              · rcases List.mem_append.mp hb with hb | hb
                · rcases hout b (List.mem_append_left bpost hb) with ⟨h1, _⟩
                  omega
                · rcases List.mem_singleton.mp hb with rfl
                  have hpq : p = pre.length := hbq
                  omega
              · rcases hout b (List.mem_append_right bpre hb) with ⟨h1, _⟩
                omega
            have htip : isNodeTip G pre.length = true := by
              unfold isNodeTip
              rw [hany]
              rfl
            have hget : G.nodes.getD pre.length [] = nodeAttrs (some w) none := by
              rw [hN, show nodesOfT (some p : Option Nat).isNone (NT.node (some w) d NTL.nil)
                  = [nodeAttrs (some w) none] from rfl, List.append_assoc]
              simp only [List.singleton_append]
              exact getD_boundary pre _ post []
            have horf : orFalsy (attrGet (G.nodes.getD pre.length []) kTitle)
                (attrGet (G.nodes.getD pre.length []) kName) = some (.str w) := by
              rw [hget, attrGet_nodeAttrs_title, attrGet_nodeAttrs_name]
              show (if w = [] then (none : Option Val) else some (Val.str w)) = some (Val.str w)
              rw [if_neg hwne]
            have hdist : getDistance G pre.length p = d.map .num := by
              refine getDistance_decomp2 G bpre bpost pre.length p d ?_ ?_
              · rw [hB]
                simp [List.append_assoc]
              · intro b hb
                rcases hout b (List.mem_append_left bpost hb) with ⟨h1, h2⟩
                constructor <;> omega
            rw [writeNode_succ,
              structPartDef_tip G f pre.length (some p) w htip horf (writerTipName_id w hwall),
              eb_ok]
            show eb (distPartDef G pre.length (some p)) (fun s2 => Except.ok (w ++ s2))
              = Except.ok (emitT (NT.node (some w) d NTL.nil))
            rw [distPartDef_eval_par G pre.length p d hdist, eb_ok]
            rfl
    | cons c0 cs0 =>
        cases ti with
        | some w =>
            rw [show writableT (NT.node (some w) d (NTL.cons c0 cs0)) = false from rfl] at hw
            cases hw
        | none =>
        rw [show writableT (NT.node none d (NTL.cons c0 cs0))
            = (((none : Option (List Char)).isNone && distOK d)
              && writableL (NTL.cons c0 cs0)) from rfl] at hw
        simp only [Bool.and_eq_true] at hw
        have hch : writableL (NTL.cons c0 cs0) = true := hw.2
        simp only [show sizeT (NT.node none d (NTL.cons c0 cs0))
            = 1 + sizeL (NTL.cons c0 cs0) from rfl] at hout hpar hf
        obtain ⟨d0, rest0, hc0⟩ : ∃ d0 rest0,
            branchesOfT (pre.length + 1) (some pre.length) c0
              = (pre.length, pre.length + 1, branchAttrs d0) :: rest0 := by
          cases c0
          exact ⟨_, _, rfl⟩
        have hLsplit : branchesOfL (pre.length + 1) pre.length (NTL.cons c0 cs0)
            = (pre.length, pre.length + 1, branchAttrs d0) :: (rest0 ++
              branchesOfL (pre.length + 1 + sizeT c0) pre.length cs0) := by
          rw [show branchesOfL (pre.length + 1) pre.length (NTL.cons c0 cs0)
              = branchesOfT (pre.length + 1) (some pre.length) c0
                ++ branchesOfL (pre.length + 1 + sizeT c0) pre.length cs0 from rfl, hc0]
          rfl
        have hlen : (pre ++ [nodeAttrs none (if par.isNone then d else none)]).length
            = pre.length + 1 := by simp
        cases par with
        | none =>
            rw [show branchesOfT pre.length none (NT.node none d (NTL.cons c0 cs0))
                = branchesOfL (pre.length + 1) pre.length (NTL.cons c0 cs0) from rfl] at hB
            have hb0mem : (pre.length, pre.length + 1, branchAttrs d0) ∈ G.branches := by
              rw [hB]
              refine List.mem_append_left bpost (List.mem_append_right bpre ?_)
              rw [hLsplit]
              exact List.mem_cons_self _ _
            have htipF : isNodeTip G pre.length = false := by
              unfold isNodeTip
              rw [List.any_eq_true.mpr ⟨_, hb0mem, by simp⟩]
              rfl
            have hadj : adjacentNodes G pre.length
                = childBases (pre.length + 1) (NTL.cons c0 cs0) := by
              unfold adjacentNodes
              rw [hB, adjOf_append, adjOf_append,
                adjOf_nil bpre pre.length (fun b hb => by
                  rcases hout b (List.mem_append_left bpost hb) with ⟨h1, h2⟩
                  constructor <;> omega),
                adjOf_nil bpost pre.length (fun b hb => by
                  rcases hout b (List.mem_append_right bpre hb) with ⟨h1, h2⟩
                  constructor <;> omega),
                adjOf_branchesOfL_par (NTL.cons c0 cs0) (pre.length + 1) pre.length
                  (Nat.lt_succ_self _)]
              simp
            have hget : G.nodes.getD pre.length [] = nodeAttrs none d := by
              rw [hN, show nodesOfT (none : Option Nat).isNone (NT.node none d (NTL.cons c0 cs0))
                  = nodeAttrs none d :: nodesOfL (NTL.cons c0 cs0) from rfl, List.append_assoc]
              rw [List.cons_append]
              exact getD_boundary pre _ _ []
            have hN2 : G.nodes = (pre ++ [nodeAttrs none d]) ++ nodesOfL (NTL.cons c0 cs0)
                ++ post := by
              rw [hN, show nodesOfT (none : Option Nat).isNone (NT.node none d (NTL.cons c0 cs0))
                  = nodeAttrs none d :: nodesOfL (NTL.cons c0 cs0) from rfl]
              simp [List.append_assoc]
            have hwc := writeChildren_emitL (NTL.cons c0 cs0) G (pre ++ [nodeAttrs none d])
              post bpre bpost pre.length f hch
              hN2
              (by rw [show (pre ++ [nodeAttrs none d]).length = pre.length + 1 by simp]
                  exact hB)
              (by intro b hb
                  rw [show (pre ++ [nodeAttrs none d]).length = pre.length + 1 by simp]
                  rcases hout b hb with ⟨h1, h2⟩
                  constructor <;> omega)
              (by rw [show (pre ++ [nodeAttrs none d]).length = pre.length + 1 by simp]
                  omega)
              (by omega)
            rw [show (pre ++ [nodeAttrs none d]).length = pre.length + 1 by simp] at hwc
            rw [writeNode_succ,
              structPartDef_internal G f pre.length none
                (childBases (pre.length + 1) (NTL.cons c0 cs0))
                (emitParts (NTL.cons c0 cs0)) htipF
                (by rw [hadj]; exact List.filter_eq_self.mpr (fun a _ => by simp))
                hwc
                (by rw [hget, attrGet_nodeAttrs_support]),
              intercalate_emitParts, eb_ok]
            show eb (distPartDef G pre.length none)
                (fun s2 => Except.ok (('(' :: emitL (NTL.cons c0 cs0) ++ [')']) ++ s2))
              = Except.ok (emitT (NT.node none d (NTL.cons c0 cs0)))
            rw [distPartDef_eval_root G pre.length d
              (by rw [hget, attrGet_nodeAttrs_dist]), eb_ok]
            rfl
        | some p =>
            have hp := hpar p rfl
            rw [show branchesOfT pre.length (some p) (NT.node none d (NTL.cons c0 cs0))
                = (p, pre.length, branchAttrs d)
                  :: branchesOfL (pre.length + 1) pre.length (NTL.cons c0 cs0) from rfl] at hB
            have hb0mem : (pre.length, pre.length + 1, branchAttrs d0) ∈ G.branches := by
              rw [hB]
              refine List.mem_append_left bpost (List.mem_append_right bpre ?_)
              rw [hLsplit]
              exact List.mem_cons_of_mem _ (List.mem_cons_self _ _)
            have htipF : isNodeTip G pre.length = false := by
              unfold isNodeTip
              rw [List.any_eq_true.mpr ⟨_, hb0mem, by simp⟩]
              rfl
            have hadj : adjacentNodes G pre.length
                = p :: childBases (pre.length + 1) (NTL.cons c0 cs0) := by
              unfold adjacentNodes
              rw [hB, adjOf_append, adjOf_append,
                adjOf_nil bpre pre.length (fun b hb => by
                  rcases hout b (List.mem_append_left bpost hb) with ⟨h1, h2⟩
                  constructor <;> omega),
                adjOf_nil bpost pre.length (fun b hb => by
                  rcases hout b (List.mem_append_right bpre hb) with ⟨h1, h2⟩
                  constructor <;> omega),
                adjOf_cons, if_neg (by omega : ¬(p = pre.length)), if_pos rfl,
                adjOf_branchesOfL_par (NTL.cons c0 cs0) (pre.length + 1) pre.length
                  (Nat.lt_succ_self _)]
              simp
            have hfil : ((p :: childBases (pre.length + 1) (NTL.cons c0 cs0)).filter
                (fun m => (some p : Option Nat) ≠ some m))
                = childBases (pre.length + 1) (NTL.cons c0 cs0) := by
              rw [List.filter_cons]
              rw [if_neg (by simp)]
              refine List.filter_eq_self.mpr ?_
              intro a ha
              have := childBases_range (NTL.cons c0 cs0) (pre.length + 1) a ha
              simp only [ne_eq, Option.some.injEq, decide_not, Bool.not_eq_eq_eq_not,
                Bool.not_true, decide_eq_false_iff_not]
              omega
            have hget : G.nodes.getD pre.length [] = nodeAttrs none none := by
              rw [hN, show nodesOfT (some p : Option Nat).isNone (NT.node none d (NTL.cons c0 cs0))
                  = nodeAttrs none none :: nodesOfL (NTL.cons c0 cs0) from rfl, List.append_assoc]
              rw [List.cons_append]
              exact getD_boundary pre _ _ []
            have hN2 : G.nodes = (pre ++ [nodeAttrs none none])
                ++ nodesOfL (NTL.cons c0 cs0) ++ post := by
              rw [hN, show nodesOfT (some p : Option Nat).isNone (NT.node none d (NTL.cons c0 cs0))
                  = nodeAttrs none none :: nodesOfL (NTL.cons c0 cs0) from rfl]
              simp [List.append_assoc]
            have hwc := writeChildren_emitL (NTL.cons c0 cs0) G (pre ++ [nodeAttrs none none])
              post (bpre ++ [(p, pre.length, branchAttrs d)]) bpost pre.length f hch
              hN2
              (by rw [show (pre ++ [nodeAttrs none none]).length = pre.length + 1 by simp]
                  rw [hB]
                  simp [List.append_assoc])
              (by intro b hb
                  rw [show (pre ++ [nodeAttrs none none]).length = pre.length + 1 by simp]
                  rcases List.mem_append.mp hb with hb | hb
                  · rcases List.mem_append.mp hb with hb | hb
                    · rcases hout b (List.mem_append_left bpost hb) with ⟨h1, h2⟩
                      constructor <;> omega
                    · rcases List.mem_singleton.mp hb with rfl
                      constructor
                      · show p < pre.length + 1 ∨ _ ≤ p
                        omega
                      · show pre.length < pre.length + 1 ∨ _ ≤ pre.length
                        omega
                  · rcases hout b (List.mem_append_right bpre hb) with ⟨h1, h2⟩
                    constructor <;> omega)
              (by rw [show (pre ++ [nodeAttrs none none]).length = pre.length + 1 by simp]
                  omega)
              (by omega)
            rw [show (pre ++ [nodeAttrs none none]).length = pre.length + 1 by simp] at hwc
            have hdist : getDistance G pre.length p = d.map .num := by
              refine getDistance_decomp2 G bpre
                (branchesOfL (pre.length + 1) pre.length (NTL.cons c0 cs0) ++ bpost)
                pre.length p d ?_ ?_
              · rw [hB]
                simp [List.append_assoc]
              · intro b hb
                rcases hout b (List.mem_append_left bpost hb) with ⟨h1, h2⟩
                constructor <;> omega
            rw [writeNode_succ,
              structPartDef_internal G f pre.length (some p)
                (childBases (pre.length + 1) (NTL.cons c0 cs0))
                (emitParts (NTL.cons c0 cs0)) htipF
                (by rw [hadj]; exact hfil)
                hwc
                (by rw [hget, attrGet_nodeAttrs_support]),
              intercalate_emitParts, eb_ok]
            show eb (distPartDef G pre.length (some p))
                (fun s2 => Except.ok (('(' :: emitL (NTL.cons c0 cs0) ++ [')']) ++ s2))
              = Except.ok (emitT (NT.node none d (NTL.cons c0 cs0)))
            rw [distPartDef_eval_par G pre.length p d hdist, eb_ok]
            rfl

/-- The children loop writes every child subtree in order. -/
theorem writeChildren_emitL : ∀ (cs : NTL) (G : PTree) (pre post : List Attrs)
    (bpre bpost : List (Nat × Nat × Attrs)) (nid : Nat) (f : Nat),
    writableL cs = true →
    G.nodes = pre ++ nodesOfL cs ++ post →
    G.branches = bpre ++ branchesOfL pre.length nid cs ++ bpost →
    (∀ b ∈ bpre ++ bpost, (b.1 < pre.length ∨ pre.length + sizeL cs ≤ b.1) ∧
      (b.2.1 < pre.length ∨ pre.length + sizeL cs ≤ b.2.1)) →
    nid < pre.length →
    sizeL cs ≤ f →
    writeChildren (fun c => writeNode G f c (some nid)) (childBases pre.length cs)
      = .ok (emitParts cs)
  | .nil, G, pre, post, bpre, bpost, nid, f, _, _, _, _, _, _ => rfl
  | .cons c cs, G, pre, post, bpre, bpost, nid, f, hw, hN, hB, hout, hnid, hf => by
      rw [show writableL (NTL.cons c cs) = (writableT c && writableL cs) from rfl] at hw
      simp only [Bool.and_eq_true] at hw
      simp only [show sizeL (NTL.cons c cs) = sizeT c + sizeL cs from rfl] at hout hf
      rw [show nodesOfL (NTL.cons c cs) = nodesOfT false c ++ nodesOfL cs from rfl] at hN
      rw [show branchesOfL pre.length nid (NTL.cons c cs)
          = branchesOfT pre.length (some nid) c
            ++ branchesOfL (pre.length + sizeT c) nid cs from rfl] at hB
      have h1 : writeNode G f pre.length (some nid) = .ok (emitT c) := by
        refine writeNode_emitT c G pre (nodesOfL cs ++ post) bpre
          (branchesOfL (pre.length + sizeT c) nid cs ++ bpost) (some nid) f hw.1
          ?_ ?_ ?_ ?_ (by omega)
        · rw [hN]
          simp [List.append_assoc]
        · rw [hB]
          simp [List.append_assoc]
        · intro b hb
          rcases List.mem_append.mp hb with hb | hb
          · rcases hout b (List.mem_append_left bpost hb) with ⟨hx1, hx2⟩
            constructor <;> omega
          · rcases List.mem_append.mp hb with hb | hb
            · rcases branchesOfL_range cs (pre.length + sizeT c) nid b hb with ⟨hc, hpp | hpp⟩
              · constructor <;> omega
              · constructor <;> omega
            · rcases hout b (List.mem_append_right bpre hb) with ⟨hx1, hx2⟩
              constructor <;> omega
        · intro q hq
          rcases Option.some.inj hq with rfl
          left
          exact hnid
      have h2 : writeChildren (fun c => writeNode G f c (some nid))
          (childBases (pre.length + sizeT c) cs) = .ok (emitParts cs) := by
        have := writeChildren_emitL cs G (pre ++ nodesOfT false c) post
          (bpre ++ branchesOfT pre.length (some nid) c) bpost nid f hw.2
          (by rw [hN]; simp [List.append_assoc])
          (by rw [List.length_append, nodesOfT_len, hB]; simp [List.append_assoc])
          (by intro b hb
              rw [List.length_append, nodesOfT_len]
              rcases List.mem_append.mp hb with hb | hb
              · rcases List.mem_append.mp hb with hb | hb
                · rcases hout b (List.mem_append_left bpost hb) with ⟨hx1, hx2⟩
                  constructor <;> omega
                · rcases branchesOfT_range c pre.length (some nid) b hb with ⟨hc, hpp | hpp⟩
                  · constructor <;> omega
                  · rcases Option.some.inj hpp.symm with rfl
                    constructor <;> omega
              · rcases hout b (List.mem_append_right bpre hb) with ⟨hx1, hx2⟩
                constructor <;> omega)
          (by rw [List.length_append, nodesOfT_len]; omega)
          (by omega)
        rw [List.length_append, nodesOfT_len] at this
        exact this
      rw [show childBases pre.length (NTL.cons c cs)
          = pre.length :: childBases (pre.length + sizeT c) cs from rfl]
      rw [show writeChildren (fun c => writeNode G f c (some nid))
            (pre.length :: childBases (pre.length + sizeT c) cs)
          = eb (writeNode G f pre.length (some nid)) (fun s =>
              eb (writeChildren (fun c => writeNode G f c (some nid))
                (childBases (pre.length + sizeT c) cs)) (fun ss => .ok (s :: ss))) from rfl]
      rw [h1, eb_ok, h2, eb_ok]
      rfl
end

/-- Writing a flattened writable shape emits exactly its Newick text. -/
theorem write_flatten (t : NT) (hw : writableT t = true) :
    write (flatten t) = .ok (emitT t) := by
  rw [flatten_struct]
  rw [show write (⟨nodesOfT true t, branchesOfT 0 none t, some 0⟩ : PTree)
      = writeNode ⟨nodesOfT true t, branchesOfT 0 none t, some 0⟩
        ((nodesOfT true t).length + 1) 0 none from rfl]
  refine writeNode_emitT t _ [] [] [] [] none _ hw ?_ ?_ ?_ ?_ ?_
  · simp
  · simp
  · intro b hb
    simp at hb
  · intro p hp
    exact Option.noConfusion hp
  · rw [nodesOfT_len]
    omega

theorem attrGet_roundAttrs (a : Attrs) (key : List Char) :
    attrGet (roundAttrs a) key = (attrGet a key).map roundVal := by
  induction a with
  | nil => rfl
  | cons p rest ih =>
      show attrGet ((p.1, roundVal p.2) :: roundAttrs rest) key = _
      unfold attrGet
      by_cases h : p.1 = key
      · rw [if_pos h, if_pos h]
        rfl
      · rw [if_neg h, if_neg h]
        exact ih

theorem nodeAttrs_round (ti : Option (List Char)) (dopt : Option Dc) :
    nodeAttrs ti (dopt.map (fun q => ⟨rndAt 3 q, 3⟩)) = roundAttrs (nodeAttrs ti dopt) := by
  cases ti <;> cases dopt <;> rfl

theorem branchAttrs_round (dopt : Option Dc) :
    branchAttrs (dopt.map (fun q => ⟨rndAt 3 q, 3⟩)) = roundAttrs (branchAttrs dopt) := by
  cases dopt <;> rfl

mutual
theorem sizeT_mapRound : ∀ t : NT, sizeT (mapRoundT t) = sizeT t
  | .node ti d ch => by
      show 1 + sizeL (mapRoundL ch) = 1 + sizeL ch
      rw [sizeL_mapRound ch]
theorem sizeL_mapRound : ∀ cs : NTL, sizeL (mapRoundL cs) = sizeL cs
  | .nil => rfl
  | .cons c cs => by
      show sizeT (mapRoundT c) + sizeL (mapRoundL cs) = sizeT c + sizeL cs
      rw [sizeT_mapRound c, sizeL_mapRound cs]
end

mutual
theorem nodesOfT_mapRound : ∀ (isRoot : Bool) (t : NT),
    nodesOfT isRoot (mapRoundT t) = (nodesOfT isRoot t).map roundAttrs
  | isRoot, .node ti d ch => by
      show nodeAttrs ti (if isRoot then d.map (fun q => ⟨rndAt 3 q, 3⟩) else none)
          :: nodesOfL (mapRoundL ch)
        = (nodeAttrs ti (if isRoot then d else none) :: nodesOfL ch).map roundAttrs
      rw [List.map_cons, nodesOfL_mapRound ch]
      cases isRoot with
      | true => rw [if_pos rfl, if_pos rfl, nodeAttrs_round]
      | false =>
          rw [if_neg (by simp), if_neg (by simp)]
          rw [show roundAttrs (nodeAttrs ti none) = nodeAttrs ti none by cases ti <;> rfl]
theorem nodesOfL_mapRound : ∀ cs : NTL, nodesOfL (mapRoundL cs) = (nodesOfL cs).map roundAttrs
  | .nil => rfl
  | .cons c cs => by
      show nodesOfT false (mapRoundT c) ++ nodesOfL (mapRoundL cs)
        = (nodesOfT false c ++ nodesOfL cs).map roundAttrs
      rw [List.map_append, nodesOfT_mapRound false c, nodesOfL_mapRound cs]
end

mutual
theorem branchesOfT_mapRound : ∀ (base : Nat) (par : Option Nat) (t : NT),
    branchesOfT base par (mapRoundT t)
      = (branchesOfT base par t).map (fun b => (b.1, b.2.1, roundAttrs b.2.2))
  | base, par, .node ti d ch => by
      show (match par with
            | some p => [(p, base, branchAttrs (d.map (fun q => ⟨rndAt 3 q, 3⟩)))]
            | none => []) ++ branchesOfL (base + 1) base (mapRoundL ch)
        = ((match par with
            | some p => [(p, base, branchAttrs d)]
            | none => []) ++ branchesOfL (base + 1) base ch).map
            (fun b => (b.1, b.2.1, roundAttrs b.2.2))
      rw [List.map_append, branchesOfL_mapRound (base + 1) base ch]
      cases par with
      | none => rfl
      | some p =>
          rw [show ([(p, base, branchAttrs d)]).map (fun b => (b.1, b.2.1, roundAttrs b.2.2))
              = [(p, base, roundAttrs (branchAttrs d))] from rfl, branchAttrs_round]
theorem branchesOfL_mapRound : ∀ (base nid : Nat) (cs : NTL),
    branchesOfL base nid (mapRoundL cs)
      = (branchesOfL base nid cs).map (fun b => (b.1, b.2.1, roundAttrs b.2.2))
  | base, nid, .nil => rfl
  | base, nid, .cons c cs => by
      show branchesOfT base (some nid) (mapRoundT c)
          ++ branchesOfL (base + sizeT (mapRoundT c)) nid (mapRoundL cs)
        = (branchesOfT base (some nid) c ++ branchesOfL (base + sizeT c) nid cs).map
            (fun b => (b.1, b.2.1, roundAttrs b.2.2))
      rw [sizeT_mapRound c, List.map_append, branchesOfT_mapRound base (some nid) c,
        branchesOfL_mapRound (base + sizeT c) nid cs]
end

/-- The tree read back from the writer's output is the original flattened
tree with every attribute value rounded. -/
theorem flatten_mapRound (t : NT) :
    flatten (mapRoundT t)
      = ⟨(flatten t).nodes.map roundAttrs,
         (flatten t).branches.map (fun b => (b.1, b.2.1, roundAttrs b.2.2)),
         (flatten t).root⟩ := by
  rw [flatten_struct, flatten_struct]
  dsimp only
  rw [nodesOfT_mapRound, branchesOfT_mapRound]

mutual
theorem nodesOfT_title_shape : ∀ (isRoot : Bool) (t : NT) (a : Attrs),
    a ∈ nodesOfT isRoot t → attrGet (roundAttrs a) kTitle = attrGet a kTitle
  | isRoot, .node ti d ch, a, h => by
      rcases List.mem_cons.mp h with h | h
      · subst h
        rw [attrGet_roundAttrs, attrGet_nodeAttrs_title]
        cases ti <;> rfl
      · exact nodesOfL_title_shape ch a h
theorem nodesOfL_title_shape : ∀ (cs : NTL) (a : Attrs),
    a ∈ nodesOfL cs → attrGet (roundAttrs a) kTitle = attrGet a kTitle
  | .cons c cs, a, h => by
      rcases List.mem_append.mp h with h | h
      · exact nodesOfT_title_shape false c a h
      · exact nodesOfL_title_shape cs a h
end

theorem flatten_titles (t : NT) :
    (flatten (mapRoundT t)).nodes.map (fun a => attrGet a kTitle)
      = (flatten t).nodes.map (fun a => attrGet a kTitle) := by
  rw [flatten_mapRound]
  dsimp only
  rw [List.map_map]
  refine List.map_congr_left ?_
  intro a ha
  rw [flatten_struct] at ha
  exact nodesOfT_title_shape true t a ha

/-- Reading the writer's output of a flattened tree followed by stray extra
closing parentheses still succeeds and returns the same tree: `_read` never
checks that the parser consumed the whole string. -/
theorem readL_emitT_trailing {t : NT} (k : Nat) (hw : writableT t = true) :
    readL false (emitT t ++ List.replicate (k + 1) ')') = .ok (flatten (mapRoundT t)) := by
  obtain ⟨hg, hne⟩ := emitT_good t hw
  have hgood : goodStr (emitT t ++ List.replicate (k + 1) ')') := by
    refine goodStr_append2 hg (goodStr_of_nonspace ?_) hne
    intro c hc
    rw [List.eq_of_mem_replicate hc]
    exact ⟨by decide, by decide⟩
  have hne2 : emitT t ++ List.replicate (k + 1) ')' ≠ [] := by
    intro h
    exact hne (List.append_eq_nil.mp h).1
  obtain ⟨hg1, hg2, hg3⟩ := hgood
  unfold readL
  dsimp only
  have hnorm : normalizeStr (emitT t ++ List.replicate (k + 1) ')')
      = emitT t ++ List.replicate (k + 1) ')' := by
    unfold normalizeStr
    dsimp only
    rw [pstrip_fix hg1 (fun c hc => (hg2 c hc).1)]
    rw [if_neg (by
      intro hc
      exact (hg2 ';' hc).2 rfl)]
    exact collapseGo_fix _ false hg3
  rw [hnorm, if_neg hne2, if_pos rfl]
  have hp := parseP t false (emitT t ++ List.replicate (k + 1) ')') none
    (2 * (emitT t ++ List.replicate (k + 1) ')').length + 4) emptyPTree 0 0
    (List.replicate (k + 1) ')')
    hw (by simp)
    (Or.inr ⟨')', List.replicate k ')', by rw [List.replicate_succ], Or.inr rfl⟩)
    (by
      have h1 := sizeT_le_emit t hw
      rw [List.length_append]
      omega)
  rw [hp, eb_ok]
  rfl

/-- A tree with a titled root is read back without its title: the writer never
emits an internal node's (or the root's) `title`, so attribute equality fails
on a reader-produced tree with all distances present and unquoted names. -/
theorem C1_counterexample :
    readL false (String.toList "(A:1.0)B:2.0") = .ok rtT1 ∧
    write rtT1 = .ok (String.toList "(A:1.000):2.000") ∧
    readL false (String.toList "(A:1.000):2.000") = .ok rtT2 ∧
    countNodes rtT2 = countNodes rtT1 ∧
    countBranches rtT2 = countBranches rtT1 ∧
    attrGet ((rtT1.nodes.get? 0).getD []) kTitle = some (.str ['B']) ∧
    attrGet ((rtT2.nodes.get? 0).getD []) kTitle = none := by
  refine ⟨by decide, by decide, by decide, by decide, by decide, by decide, by decide⟩

/-- C1: round trip, amended.  For a tree of the reader's shape whose tips
carry nonempty plain (name-character) titles, whose internal nodes and root
are untitled, with no supports, and whose distances re-parse (`distOK`),
writing emits the canonical text and re-reading it yields exactly the same
tree with every attribute value rounded to the `%.3f` precision
(`roundAttrs`): node count, branch count, branch endpoints, the root and all
titles are preserved, distances are compared at the format's precision.  (The
unamended claim fails: internal-node and root titles are dropped by the
writer, see the counterexample.) -/
theorem C1_round_trip (t : NT) (hw : writableT t = true) :
    write (flatten t) = .ok (emitT t) ∧
    readL false (emitT t) = .ok (flatten (mapRoundT t)) ∧
    countNodes (flatten (mapRoundT t)) = countNodes (flatten t) ∧
    countBranches (flatten (mapRoundT t)) = countBranches (flatten t) ∧
    (flatten (mapRoundT t)).nodes.map (fun a => attrGet a kTitle)
      = (flatten t).nodes.map (fun a => attrGet a kTitle) ∧
    (flatten (mapRoundT t)).nodes = (flatten t).nodes.map roundAttrs ∧
    (flatten (mapRoundT t)).branches
      = (flatten t).branches.map (fun b => (b.1, b.2.1, roundAttrs b.2.2)) ∧
    (flatten (mapRoundT t)).root = (flatten t).root := by
  refine ⟨write_flatten t hw, readL_emitT false hw, ?_, ?_, flatten_titles t, ?_, ?_, ?_⟩
  · unfold countNodes
    rw [flatten_mapRound]
    simp
  · unfold countBranches
    rw [flatten_mapRound]
    simp
  · rw [flatten_mapRound]
  · rw [flatten_mapRound]
  · rw [flatten_mapRound]

theorem C1_round_trip_witness :
    writableT c1t = true ∧
    (write (flatten c1t) = .ok (emitT c1t) ∧
     readL false (emitT c1t) = .ok (flatten (mapRoundT c1t)) ∧
     countNodes (flatten (mapRoundT c1t)) = countNodes (flatten c1t) ∧
     countBranches (flatten (mapRoundT c1t)) = countBranches (flatten c1t) ∧
     (flatten (mapRoundT c1t)).nodes.map (fun a => attrGet a kTitle)
       = (flatten c1t).nodes.map (fun a => attrGet a kTitle) ∧
     (flatten (mapRoundT c1t)).nodes = (flatten c1t).nodes.map roundAttrs ∧
     (flatten (mapRoundT c1t)).branches
       = (flatten c1t).branches.map (fun b => (b.1, b.2.1, roundAttrs b.2.2)) ∧
     (flatten (mapRoundT c1t)).root = (flatten c1t).root) :=
  ⟨by decide, C1_round_trip c1t (by decide)⟩

/-- A numeric token after a closing group becomes the node's `title`; no
`support` attribute is ever set (the `_parse_support_value` call is commented
out in the source). -/
theorem C2_counterexample :
    (readL false (String.toList "(A,B)75")).map (fun tr =>
      (attrGet ((tr.nodes.get? 0).getD []) kSupport,
       attrGet ((tr.nodes.get? 0).getD []) kTitle))
    = .ok (none, some (.str ['7', '5'])) := by decide

/-- C2: corrected.  The reader never parses a support value: the call to
`_parse_support_value` is commented out (reader.py lines 221-225), so no node
of any tree `read` returns carries a `support` attribute; a bare number after
a closing group is instead consumed by the name step as the node's `title`
(see the counterexample). -/
theorem C2_no_support {s : List Char} {tr : PTree} (h : readL false s = .ok tr) :
    ∀ i, attrGet ((tr.nodes.get? i).getD []) kSupport = none :=
  fun i => (readL_RInv h).1 i

theorem C2_no_support_witness :
    readL false (String.toList "(A)") = .ok c2tree ∧
    (∀ i, attrGet ((c2tree.nodes.get? i).getD []) kSupport = none) :=
  ⟨by decide, @C2_no_support (String.toList "(A)") c2tree (by decide)⟩

/-- An input with unequal parenthesis counts is not rejected as unbalanced:
`"(A"` has one `(` and no `)`, yet `read` reaches node parsing and fails with
the end-brace message instead. -/
theorem C3_counterexample :
    countChar '(' (normalizeStr (String.toList "(A"))
        ≠ countChar ')' (normalizeStr (String.toList "(A")) ∧
    readL false (String.toList "(A") ≠ .error .unbalanced ∧
    readL false (String.toList "(A")
      = .error (.malformed (braceMsg (String.toList "(A") 1)) := by
  refine ⟨by decide, by decide, by decide⟩

/-- C3: corrected.  The balance assertion compares the count of `(` against
itself (reader.py lines 120-121), so it never fires: `read` never fails with
the unbalanced-grouping error, and every input with a nonempty normalization
— whatever its parenthesis counts — reaches node parsing. -/
theorem C3_no_unbalanced (ann : Bool) (s : List Char) :
    readL ann s ≠ .error .unbalanced ∧
    (normalizeStr s ≠ [] →
      readL ann s = eb (parse_node ann (normalizeStr s)
        (2 * (normalizeStr s).length + 4) none emptyPTree 0) (fun x => .ok x.2.1)) := by
  constructor
  · intro h
    rcases readL_err h with ⟨he, _⟩ | ⟨_, hs⟩
    · exact Err.noConfusion he
    · exact hs
  · intro hne
    unfold readL
    dsimp only
    rw [if_neg hne, if_pos rfl]

/-- A name stops at `[`: the root of `"(x)ab[cd]"` gets title `ab`, not
`ab[cd]`; `_parseName` consumes only `ab`. -/
theorem C4_counterexample :
    (readL false (String.toList "(x)ab[cd]")).map (fun tr =>
      attrGet ((tr.nodes.get? 0).getD []) kTitle)
    = .ok (some (.str ['a', 'b'])) ∧
    parseNameF (String.toList "ab[cd]") 0 = (some ['a', 'b'], 2) := by
  refine ⟨by decide, by decide⟩

/-- C4: corrected.  The unquoted-name class of `_nameRegex` is
`[a-zA-Z0-9\-_\?\*\/]` — it does NOT contain `[` or `]` (the spec's grammar
adds them).  A maximal run of those characters, ended by any non-name,
non-space character (such as `[`), is consumed as the name. -/
theorem C4_unquoted_name (full w rest : List Char) (pos : Nat)
    (hd : full.drop pos = w ++ rest) (hw : w ≠ [])
    (hall : ∀ c ∈ w, isNameChar c = true)
    (hrest : rest = [] ∨ ∃ c r, rest = c :: r ∧ isPySpace c = false ∧ isNameChar c = false) :
    parseNameF full pos = (some w, pos + w.length)
      ∧ isNameChar '[' = false ∧ isNameChar ']' = false :=
  ⟨parseNameF_word hd hw hall hrest, by decide, by decide⟩

theorem C4_unquoted_name_witness :
    (['a', 'b'] : List Char) ≠ [] ∧
    (parseNameF (String.toList "ab[cd]") 0 = (some ['a', 'b'], 0 + (['a', 'b'] : List Char).length)
      ∧ isNameChar '[' = false ∧ isNameChar ']' = false) :=
  ⟨by decide,
   C4_unquoted_name (String.toList "ab[cd]") ['a', 'b'] (String.toList "[cd]") 0
     (by decide) (by decide) (by decide)
     (Or.inr ⟨'[', String.toList "cd]", by decide, by decide, by decide⟩)⟩

/-- C5: confirmed.  A parsed branch length goes to the connecting branch when
the node has a parent and to the node itself at the root: on the spec's
example the root node carries `distance` 0.123 as a node attribute, the tip
titled `Foo bar` carries no node distance — its branch from the root carries
1.11 — and the inner group's branch carries 2.76e-1 (as the exact decimal
276/10^3). -/
theorem C5_distance_attachment :
    readL false fooBarInput = .ok fooBarTree ∧
    attrGet ((fooBarTree.nodes.get? 0).getD []) kDistance = some (.num ⟨123, 3⟩) ∧
    attrGet ((fooBarTree.nodes.get? 1).getD []) kTitle
      = some (.str (String.toList "Foo bar")) ∧
    attrGet ((fooBarTree.nodes.get? 1).getD []) kDistance = none ∧
    (fooBarTree.branches.get? 0).map (fun b => (b.1, b.2.1, attrGet b.2.2 kDistance))
      = some (0, 1, some (.num ⟨111, 2⟩)) ∧
    (fooBarTree.branches.get? 1).map (fun b => (b.1, b.2.1, attrGet b.2.2 kDistance))
      = some (0, 2, some (.num ⟨276, 3⟩)) := by
  refine ⟨by decide, by decide, by decide, by decide, by decide, by decide⟩

/-- The failure message quotes only the first ten characters of the parsed
string: for the thirteen-character input `"(abcdefghijkl"` the original
string is not contained in the message. -/
theorem C6_counterexample :
    readL false (String.toList "(abcdefghijkl")
      = .error (.malformed (braceMsg (String.toList "(abcdefghijkl") 12)) ∧
    ¬ (String.toList "(abcdefghijkl" <:+: braceMsg (String.toList "(abcdefghijkl") 12) := by
  refine ⟨by decide, by decide⟩

/-- C6: corrected.  When a child group is not closed by `)`, `read` fails with
the end-brace assertion whose message is `braceMsg` at the failure offset: it
contains the cursor offset (in decimal) and the first TEN characters of the
normalized string (plus ten characters at the offset) — not the whole
original string, which the claim (and spec) promise. -/
theorem C6_brace_error {ann : Bool} {s m : List Char}
    (h : readL ann s = .error (.malformed m)) :
    ∃ p, m = braceMsg (normalizeStr s) p ∧
      (normalizeStr s).take 10 <:+: m ∧ natChars p <:+: m := by
  rcases readL_err h with ⟨he, _⟩ | ⟨_, hs⟩
  · exact Err.noConfusion he
  · obtain ⟨p, hp⟩ := hs
    subst hp
    exact ⟨p, rfl, take10_infix_braceMsg _ p, posn_infix_braceMsg _ p⟩

theorem C6_brace_error_witness :
    readL false (String.toList "(A") = .error (.malformed (braceMsg (String.toList "(A") 1)) ∧
    (∃ p, braceMsg (String.toList "(A") 1 = braceMsg (normalizeStr (String.toList "(A")) p ∧
      (normalizeStr (String.toList "(A")).take 10 <:+: braceMsg (String.toList "(A") 1 ∧
      natChars p <:+: braceMsg (String.toList "(A") 1) :=
  ⟨by decide, @C6_brace_error false (String.toList "(A")
    (braceMsg (String.toList "(A") 1) (by decide)⟩

theorem C7_counterexample :
    writerTipName quotedSpaceName = quotedSpaceName ∧
    quotedSpaceName.head? ≠ some '\'' ∧
    quotedSpaceName.getLast? = some 'c' ∧
    hasSpaceComma quotedSpaceName = true := by decide

/-- C7: corrected.  For quote-free names the claim holds exactly: the writer
wraps the name in single quotes precisely when it contains whitespace or a
comma; and a fully quoted name is emitted unchanged (never double-quoted).
But the implemented `already quoted` test is `_quotedNameRegex.search`, which
matches a quoted run anywhere inside the name, so a name that merely contains
a quoted substring is never wrapped even when it has spaces (see the
counterexample). -/
theorem C7_tip_quoting (w v : List Char) (hq : ∀ c ∈ w, c ≠ '\'') :
    writerTipName w = (if hasSpaceComma w then '\'' :: w ++ ['\''] else w) ∧
    writerTipName ('\'' :: v ++ ['\'']) = '\'' :: v ++ ['\''] := by
  constructor
  · have hqr : hasQuotedRun w = false := by
      unfold hasQuotedRun
      rw [List.dropWhile_eq_nil_iff.mpr (fun x hx => by
        simp only [ne_eq, decide_not, Bool.not_eq_eq_eq_not, Bool.not_true,
          decide_eq_false_iff_not]
        exact hq x hx)]
    unfold writerTipName
    rw [hqr]
    simp
  · have hqr : hasQuotedRun ('\'' :: v ++ ['\'']) = true := by
      show (v ++ ['\'']).any (fun c => c = '\'') = true
      rw [List.any_eq_true]
      exact ⟨'\'', List.mem_append_right v (List.mem_singleton.mpr rfl), by simp⟩
    unfold writerTipName
    rw [hqr]
    simp

theorem C7_tip_quoting_witness :
    (∀ c ∈ (String.toList "A B"), c ≠ '\'') ∧
    (writerTipName (String.toList "A B")
        = (if hasSpaceComma (String.toList "A B")
           then '\'' :: String.toList "A B" ++ ['\''] else String.toList "A B") ∧
     writerTipName ('\'' :: String.toList "x" ++ ['\''])
        = '\'' :: String.toList "x" ++ ['\'']) :=
  ⟨by decide, C7_tip_quoting (String.toList "A B") (String.toList "x") (by decide)⟩

/-- C8: confirmed.  `read` fails with the empty-input assertion exactly when
the input's normalization (trim, strip one trailing `;`, re-trim, collapse
whitespace) is empty — so in particular on the empty string, whitespace-only
input and a lone `;` — and never otherwise. -/
theorem C8_empty_input (ann : Bool) (s : List Char) :
    readL ann s = .error .emptyInput ↔ normalizeStr s = [] := by
  constructor
  · intro h
    rcases readL_err h with ⟨_, hn⟩ | ⟨_, hs⟩
    · exact hn
    · exact hs.elim
  · intro h
    unfold readL
    dsimp only
    rw [if_pos h]

/-- C9: confirmed.  Any error of `_parse_node_annotations` is the
`ValueError` of `dict (...)` on a pair without `=` (never a silent drop):
concretely, `read` on `"(x)A[&kv]"` propagates that error to the caller,
while on `"(x)A[&k=v,j=w]"` both pairs are split on `=` and merged into the
node's attribute mapping. -/
theorem C9_annotation_errors :
    (∀ (full : List Char) (nid : Nat) (tr : PTree) (pos : Nat) (e : Err),
        parse_node_anns full nid tr pos = .error e → e = .badAnnPairs) ∧
    readL true (String.toList "(x)A[&kv]") = .error .badAnnPairs ∧
    (readL true (String.toList "(x)A[&k=v,j=w]")).map (fun tr =>
        (attrGet ((tr.nodes.get? 0).getD []) (String.toList "k"),
         attrGet ((tr.nodes.get? 0).getD []) (String.toList "j")))
      = .ok (some (.str (String.toList "v")), some (.str (String.toList "w"))) := by
  refine ⟨fun full nid tr pos e h => parse_node_anns_err h, by decide, by decide⟩

/-- C10: confirmed (implicit).  `_read` discards the parser's final cursor
position: appending stray text — here one or more extra `)` characters, which
even unbalance the parenthesis counts — leaves the result unchanged: `read`
still succeeds and returns the tree of the leading node description. -/
theorem C10_trailing_ignored (t : NT) (k : Nat) (hw : writableT t = true) :
    readL false (emitT t ++ List.replicate (k + 1) ')') = .ok (flatten (mapRoundT t)) ∧
    readL false (emitT t) = .ok (flatten (mapRoundT t)) :=
  ⟨readL_emitT_trailing k hw, readL_emitT false hw⟩

theorem C10_trailing_ignored_witness :
    writableT c10t = true ∧
    (readL false (emitT c10t ++ List.replicate (0 + 1) ')') = .ok (flatten (mapRoundT c10t)) ∧
     readL false (emitT c10t) = .ok (flatten (mapRoundT c10t))) :=
  ⟨by decide, C10_trailing_ignored c10t 0 (by decide)⟩
